import Mathlib

/-!
Verification development for the design-token transformation pipeline of the
`design-system-scaffold` repository.

The definitions below are shallow embeddings of the JavaScript functions in
`scripts/w3c-token-parser.js` (a bundle containing the legacy W3C parser, the
universal token parser, and the Figma transform script) and
`scripts/transform-figma-tokens.js`.  Conventions used throughout:

* JavaScript objects with string keys are modelled as insertion-ordered
  association lists `List (String × _)`; `setKey` mirrors `obj[k] = v`
  (update in place if the key exists, append otherwise) and `lookupKey`
  mirrors `obj[k]` (keys are unique in the JS objects produced by the code,
  so first-match lookup agrees with object lookup).
* Token values are modelled as `String`; the code paths studied here only
  copy values around and compare them, never inspect non-string structure.
* `Math.sqrt`-based colour distances are compared via their squares
  (`sqrt` is monotone and `sqrt d ≤ 30 ↔ d ≤ 900` for the integer squared
  distances involved); `Infinity` (unparseable hex) is `none`.
* Floating-point HSL arithmetic is modelled with exact rationals; all
  comparisons in the modelled code are far from the rounding error of IEEE
  doubles on the inputs reachable from 8-bit RGB components.
-/

/-- The left (`\x7b`) and right (`\x7d`) curly-brace characters, named so the
embedding of the reference-syntax regexes can pattern on them. -/
def lbr : Char := Char.ofNat 123

/-- Right curly brace. -/
def rbr : Char := Char.ofNat 125

/-- Substring test on character lists (embeds JS `String.prototype.includes`). -/
def containsSub (pat : List Char) : List Char → Bool
  | [] => pat.isEmpty
  | s@(_ :: rest) => pat.isPrefixOf s || containsSub pat rest

/-- `String.prototype.includes` for strings. -/
def containsSubStr (pat s : String) : Bool :=
  containsSub pat.toList s.toList

/-- JS `String.prototype.toLowerCase` (all strings involved are ASCII, where
`Char.toLower` agrees with it). -/
def strToLower (s : String) : String :=
  String.mk (s.toList.map Char.toLower)

/-- JS `str.split("-")` on character lists. -/
def splitDashChars : List Char → List (List Char)
  | [] => [[]]
  | c :: rest =>
    let r := splitDashChars rest
    if c = '-' then [] :: r
    else
      match r with
      | h :: t => (c :: h) :: t
      | [] => [[c]]

/-- JS `str.split("-")`. -/
def splitDash (s : String) : List String :=
  (splitDashChars s.toList).map String.mk

/-- JS `parts.join("-")`. -/
def joinDash : List String → String
  | [] => ""
  | [x] => x
  | x :: rest => x ++ "-" ++ joinDash rest

/-- JS `s.startsWith(pre)`. -/
def startsWithStr (s pre : String) : Bool :=
  pre.toList.isPrefixOf s.toList

/-- JS `str.replace(/&/g, "-")`. -/
def replaceAmp (s : String) : String :=
  String.mk (s.toList.map (fun c => if c = '&' then '-' else c))

/-- Order-preserving de-duplication keeping the first occurrence, as JS
`arr.filter((n, i, self) => self.indexOf(n) === i)`. -/
def dedupFirst (seen : List String) : List String → List String
  | [] => []
  | x :: xs =>
    if seen.contains x then dedupFirst seen xs else x :: dedupFirst (x :: seen) xs

/-- JS object assignment `obj[k] = v` on an insertion-ordered association
list: overwrite in place when the key exists, append otherwise. -/
def setKey (m : List (String × String)) (k v : String) : List (String × String) :=
  if m.any (fun p => p.1 = k) then
    m.map (fun p => if p.1 = k then (k, v) else p)
  else
    m ++ [(k, v)]

/-- JS object read `obj[k]` on an association list (keys unique in the
objects the code builds, so first match is the object entry). -/
def lookupKey (m : List (String × String)) (k : String) : Option String :=
  (m.find? (fun p => p.1 = k)).map (fun p => p.2)

/-- JS object spread `\x7b ...a, ...b \x7d`: entries of `a` then the new keys
of `b`, with `b` overriding values of shared keys in place. -/
def mergeAssoc (a b : List (String × String)) : List (String × String) :=
  b.foldl (fun acc p => setKey acc p.1 p.2) a

/-- One global pass of the replacement `str.replace(p, "$1-$2")` for a
two-character boundary pattern such as `/([a-z])([A-Z])/g`: a hyphen is
inserted between every adjacent pair `c₁c₂` with `p₁ c₁ ∧ p₂ c₂` (matches
cannot overlap because the second character of a match never satisfies
`p₁` for the patterns used by the code). -/
def insertBoundary (p₁ p₂ : Char → Bool) : List Char → List Char
  | [] => []
  | [c] => [c]
  | c₁ :: c₂ :: rest =>
    if p₁ c₁ && p₂ c₂ then c₁ :: '-' :: insertBoundary p₁ p₂ (c₂ :: rest)
    else c₁ :: insertBoundary p₁ p₂ (c₂ :: rest)

/-- The JS helper `longestCommonPrefix` inside `cleanTokenName`: length of the
longest common prefix of two strings, computed on character lists. -/
def longestCommonPrefixLen : List Char → List Char → Nat
  | a :: as, b :: bs => if a = b then longestCommonPrefixLen as bs + 1 else 0
  | _, _ => 0

/-- First step of `cleanTokenName`: drop a leading `"Secondary"` organizational
wrapper when the path has at least three segments. -/
def dropSecondaryLabel (parts : List String) : List String :=
  match parts with
  | p₀ :: rest => if strToLower p₀ = "secondary" && 3 ≤ parts.length then rest else parts
  | [] => parts

/-- Second step of `cleanTokenName`: drop the first segment when it is
redundant with the second (common prefix of length ≥ 4, or one is a prefix
of the other), compared case-insensitively. -/
def dropRedundantFirst (parts : List String) : List String :=
  match parts with
  | p₀ :: p₁ :: rest =>
    let f := strToLower p₀
    let s := strToLower p₁
    if 4 ≤ longestCommonPrefixLen f.toList s.toList
        || startsWithStr s f || startsWithStr f s then
      p₁ :: rest
    else parts
  | _ => parts

/-- `cleanTokenName` from `scripts/transform-figma-tokens.js` (lines 45–82;
the identical copy in the bundled file is at lines 1207–1244): drop a
redundant leading segment, then normalise `&`, camelCase boundaries and
letter-digit boundaries to hyphens and lowercase the result. -/
def cleanTokenName (name : String) : String :=
  let parts := dropRedundantFirst (dropSecondaryLabel (splitDash name))
  let joined := joinDash parts
  let s₁ := replaceAmp joined
  let s₂ := String.mk (insertBoundary Char.isLower Char.isUpper s₁.toList)
  let s₃ := String.mk (insertBoundary Char.isLower Char.isDigit s₂.toList)
  strToLower s₃

/-- Inner loop of `reorderSemanticToken`: try the configured category keywords
in order; the first keyword whose first occurrence among the name's segments
is at a positive index is spliced out and moved to the front. -/
def reorderGo (parts : List String) (tokenName : String) : List String → String
  | [] => tokenName
  | k :: ks =>
    match List.findIdx? (fun p => p = k) parts with
    | some i =>
      if 0 < i then joinDash (parts.getD i "" :: parts.eraseIdx i)
      else reorderGo parts tokenName ks
    | none => reorderGo parts tokenName ks

/-- `reorderSemanticToken` from the Figma transform script (bundled file lines
1255–1277).  `enabled` models `config.transformations?.reorderSemanticTokens`
and `keywords` models `config.transformations.categoryKeywords`. -/
def reorderSemanticToken (enabled : Bool) (keywords : List String)
    (tokenName : String) : String :=
  if !enabled then tokenName
  else reorderGo (splitDash tokenName) tokenName keywords

/-- Hexadecimal digit test matching the regex class `[a-f\d]` with the `i`
flag: ASCII digits and letters `a`–`f` in either case. -/
def isHexDigitChar (c : Char) : Bool :=
  c.isDigit || ('a' ≤ c && c ≤ 'f') || ('A' ≤ c && c ≤ 'F')

/-- Numeric value of a hexadecimal digit character. -/
def hexDigitVal (c : Char) : Nat :=
  if c.isDigit then c.toNat - '0'.toNat
  else if 'a' ≤ c && c ≤ 'f' then c.toNat - 'a'.toNat + 10
  else c.toNat - 'A'.toNat + 10

/-- `hexToRgb` (bundled file lines 1313–1320): parse an optionally
`#`-prefixed six-hex-digit string into its RGB components, `none` when the
regex `/^#?([a-f\d]\x7b2\x7d)([a-f\d]\x7b2\x7d)([a-f\d]\x7b2\x7d)$/i` does
not match. -/
def hexToRgb (hex : String) : Option (Nat × Nat × Nat) :=
  let cs := hex.toList
  let cs := match cs with
    | '#' :: rest => rest
    | _ => cs
  match cs with
  | [a, b, c, d, e, f] =>
    if isHexDigitChar a && isHexDigitChar b && isHexDigitChar c &&
        isHexDigitChar d && isHexDigitChar e && isHexDigitChar f then
      some (hexDigitVal a * 16 + hexDigitVal b,
            hexDigitVal c * 16 + hexDigitVal d,
            hexDigitVal e * 16 + hexDigitVal f)
    else none
  | _ => none

/-- `colorDistance` (bundled file lines 1326–1336), represented by its square
to stay in exact integer arithmetic: `Math.sqrt` is strictly monotone, so
every comparison the callers make on distances is made here on squared
distances.  `none` models the `Infinity` returned for unparseable input. -/
def colorDistSq (hex₁ hex₂ : String) : Option Int :=
  match hexToRgb hex₁, hexToRgb hex₂ with
  | some (r₁, g₁, b₁), some (r₂, g₂, b₂) =>
    some (((r₁ : Int) - r₂) * ((r₁ : Int) - r₂) +
          ((g₁ : Int) - g₂) * ((g₁ : Int) - g₂) +
          ((b₁ : Int) - b₂) * ((b₁ : Int) - b₂))
  | _, _ => none

/-- Strict comparison of possibly-infinite squared distances (`none` = `Infinity`). -/
def ltOpt : Option Int → Option Int → Bool
  | some a, some b => a < b
  | some _, none => true
  | none, _ => false

/-- Threshold comparison `distance ≤ maxDistance` on squared distances;
`Infinity ≤ maxDistance` is false. -/
def leThresholdSq : Option Int → Int → Bool
  | some d, m => d ≤ m * m
  | none, _ => false

/-- `findClosestPrimitive` (bundled file lines 1342–1360): scan the primitive
entries keeping the strictly closest one, then return its name when the
closest distance is within `maxDistance` (the callers only use the returned
`name`, so the distance component of the JS result object is dropped). -/
def findClosestPrimitive (hexValue : String) (primitiveTokens : List (String × String))
    (maxDistance : Int) : Option String :=
  let best := primitiveTokens.foldl
    (fun (acc : Option String × Option Int) p =>
      let d := colorDistSq hexValue p.2
      if ltOpt d acc.2 then (some p.1, d) else acc)
    (none, none)
  if leThresholdSq best.2 maxDistance then best.1 else none

/-- `rgbToHsl` (bundled file lines 1387–1414) over exact rationals, returning
`(h, s, l)` already scaled to degrees / percentages as the JS code does. -/
def rgbToHsl (r g b : Nat) : Rat × Rat × Rat :=
  let r' : Rat := (r : Rat) / 255
  let g' : Rat := (g : Rat) / 255
  let b' : Rat := (b : Rat) / 255
  let mx := max r' (max g' b')
  let mn := min r' (min g' b')
  let l := (mx + mn) / 2
  if mx = mn then (0, 0, l * 100)
  else
    let d := mx - mn
    let s := if l > 1 / 2 then d / (2 - mx - mn) else d / (mx + mn)
    let h :=
      if mx = r' then ((g' - b') / d + (if g' < b' then (6 : Rat) else 0)) / 6
      else if mx = g' then ((b' - r') / d + 2) / 6
      else ((r' - g') / d + 4) / 6
    (h * 360, s * 100, l * 100)

/-- The `findAvailable` helper inside `getPureColorName`: first candidate not
already used as a family name, falling back to the first candidate when all
are taken. -/
def findAvailable (usedNames : List String) (names : List String) : String :=
  match names.find? (fun n => !usedNames.contains n) with
  | some n => n
  | none => names.headD ""

/-- The hue/saturation/lightness branch tree of `getPureColorName` (bundled
file lines 1444–1508), factored out with the used family names and the HSL
components as parameters. -/
def pickFamilyName (usedNames : List String) (h s l : Rat) : String :=
  let fa := fun names => findAvailable usedNames names
  if h < 15 ∨ 345 ≤ h then
    if s < 30 then fa ["rose", "pink", "blush"]
    else if l > 70 then fa ["coral", "salmon", "rose"]
    else if l > 50 then fa ["crimson", "ruby", "cherry"]
    else fa ["ruby", "crimson", "garnet"]
  else if 15 ≤ h ∧ h < 45 then
    if l > 65 then fa ["peach", "apricot", "cream"]
    else if s > 70 then fa ["tangerine", "persimmon", "tiger"]
    else fa ["amber", "bronze", "copper"]
  else if 45 ≤ h ∧ h < 70 then
    if l > 70 then fa ["lemon", "butter", "vanilla"]
    else if s > 60 then fa ["gold", "honey", "mustard"]
    else fa ["olive", "khaki", "sand"]
  else if 70 ≤ h ∧ h < 150 then
    if l > 70 then fa ["mint", "sage", "seafoam"]
    else if h < 100 then fa ["lime", "chartreuse", "spring"]
    else if s < 30 then fa ["sage", "moss", "olive"]
    else if l > 50 then fa ["emerald", "jade", "forest"]
    else fa ["forest", "hunter", "pine"]
  else if 150 ≤ h ∧ h < 200 then
    if l > 70 then fa ["aqua", "ice", "frost"]
    else if l > 50 then fa ["teal", "turquoise", "cyan"]
    else fa ["ocean", "deep", "marine"]
  else if 200 ≤ h ∧ h < 260 then
    if l > 70 then fa ["sky", "powder", "baby"]
    else if s < 30 then fa ["slate", "steel", "pewter"]
    else if l > 60 then fa ["azure", "cerulean", "periwinkle"]
    else if l > 40 then fa ["royal", "sapphire", "cobalt"]
    else fa ["navy", "midnight", "indigo"]
  else if 260 ≤ h ∧ h < 300 then
    if l > 70 then fa ["lavender", "lilac", "mauve"]
    else if s < 30 then fa ["plum", "eggplant", "wine"]
    else if l > 50 then fa ["violet", "amethyst", "orchid"]
    else fa ["purple", "grape", "mulberry"]
  else if 300 ≤ h ∧ h < 345 then
    if l > 70 then fa ["pink", "rose", "blush"]
    else if s > 60 then fa ["magenta", "fuchsia", "hot"]
    else fa ["berry", "wine", "maroon"]
  else "unknown"

/-- `getPureColorName` (bundled file lines 1421–1509): name a new colour
family from the HSL analysis of the group's median colour, preferring
candidate names not already used by existing primitives. -/
def getPureColorName (hexValues : List String)
    (existingPrimitives : List (String × String)) : String :=
  let mainHex := hexValues.getD (hexValues.length / 2) ""
  match hexToRgb mainHex with
  | none => "unknown"
  | some (r, g, b) =>
    let hsl := rgbToHsl r g b
    let usedNames := dedupFirst []
      (existingPrimitives.map (fun p => (splitDash p.1).headD ""))
    pickFamilyName usedNames hsl.1 hsl.2.1 hsl.2.2

/-- One entry of a semantic colour group as produced by
`extractSemanticColorGroups` (bundled file lines 1620–1657): the leaf key,
its hardcoded hex value and the full path joined with hyphens. -/
structure SemColor where
  name : String
  value : String
  fullPath : String
deriving DecidableEq, Repr

/-- Lightness key used by `sortByLightness` (bundled file lines 1662–1673):
`(max(r,g,b) + min(r,g,b)) / 2` on raw byte components; comparisons on the
halves agree with comparisons on the sums kept here.  `none` models the
comparator returning `0` for unparseable hex. -/
def lightnessKey (c : SemColor) : Option Nat :=
  (hexToRgb c.value).map (fun rgb => max rgb.1 (max rgb.2.1 rgb.2.2) + min rgb.1 (min rgb.2.1 rgb.2.2))

/-- "May come first" relation of the descending-lightness comparator:
colours with larger lightness first, unparseable colours compare equal to
everything (comparator result `0`). -/
def lightGe (a b : SemColor) : Bool :=
  match lightnessKey a, lightnessKey b with
  | some ka, some kb => kb ≤ ka
  | _, _ => true

/-- Stable insertion step for `sortByLightness`. -/
def insertByLight (x : SemColor) : List SemColor → List SemColor
  | [] => [x]
  | y :: ys => if lightGe x y then x :: y :: ys else y :: insertByLight x ys

/-- `sortByLightness` (bundled file lines 1662–1673): stable sort, light to
dark.  JS `Array.prototype.sort` is stable; stable insertion sort produces
the same ordering for the consistent comparators arising from parseable
colours. -/
def sortByLightness : List SemColor → List SemColor
  | [] => []
  | c :: cs => insertByLight c (sortByLightness cs)

/-- `index.toString().padStart(2, "0")` for the two-digit scale indices. -/
def padTwo (i : Nat) : String :=
  let s := toString i
  if s.length < 2 then "0" ++ s else s

/-- The `colors.every(...)` pass of `extractHardcodedSemanticValues` (bundled
file lines 1692–1700): match colours to existing primitives in order,
recording a mapping per success, stopping at the first colour with no close
primitive (JS `every` short-circuits, and its callback mutates `mappings`). -/
def matchAllColors (prims : List (String × String)) :
    List SemColor → List (String × String) → Bool × List (String × String)
  | [], maps => (true, maps)
  | c :: cs, maps =>
    match findClosestPrimitive c.value prims 30 with
    | some nm => matchAllColors prims cs (setKey maps c.value nm)
    | none => (false, maps)

/-- The `sortedColors.forEach(...)` pass of `extractHardcodedSemanticValues`
(bundled file lines 1714–1722): register every colour of the group as a new
primitive `pure-<index>` and repoint its mapping at that primitive. -/
def assignPalette (pure : String) :
    List SemColor → Nat → List (String × String) → List (String × String) →
    List (String × String) × List (String × String)
  | [], _, hard, maps => (hard, maps)
  | c :: cs, i, hard, maps =>
    let nm := pure ++ "-" ++ padTwo i
    assignPalette pure cs (i + 1) (setKey hard nm c.value) (setKey maps c.value nm)

/-- Per-group loop of `extractHardcodedSemanticValues` (bundled file lines
1688–1723), accumulating the `hardcodedPrimitives` and `mappings` objects. -/
def processGroups (prims : List (String × String)) :
    List (String × List SemColor) → List (String × String) → List (String × String) →
    List (String × String) × List (String × String)
  | [], hard, maps => (hard, maps)
  | (_gname, colors) :: rest, hard, maps =>
    if colors.length = 0 then processGroups prims rest hard maps
    else
      let m := matchAllColors prims colors maps
      if m.1 then processGroups prims rest hard m.2
      else
        let hexValues := colors.map (fun c => c.value)
        let pure := getPureColorName hexValues (mergeAssoc prims hard)
        let sorted := sortByLightness colors
        let r := assignPalette pure sorted 0 hard m.2
        processGroups prims rest r.1 r.2

/-- `extractHardcodedSemanticValues` (bundled file lines 1680–1726), taking
the semantic colour groups (the output of `extractSemanticColorGroups`) and
the known primitive tokens; returns `(hardcodedPrimitives, mappings)`. -/
def extractHardcodedSemanticValues (semanticGroups : List (String × List SemColor))
    (primitiveTokens : List (String × String)) :
    List (String × String) × List (String × String) :=
  processGroups primitiveTokens semanticGroups [] []

/-- The `StandardToken` class of the universal parser (bundled file lines
470–481), restricted to the fields the resolver, classifier and emitter
read (`rawValue`, `metadata`, `category` and `group` are never consulted by
the functions verified here). -/
structure StandardToken where
  name : String
  value : String
  type : String
  references : Option String
deriving DecidableEq, Repr

/-- The two console warnings `W3CParser.resolveReferences` can emit. -/
inductive ResolveWarning where
  | unresolvedRef (ref : String) (tokenName : String)
  | circularRef (tokenName : String)
deriving DecidableEq, Repr

/-- The `Map` built by `new Map(tokens.map(t => [t.name, t]))`: later entries
overwrite earlier ones, so lookup returns the last token with the name. -/
def tokenMapLookup (ts : List StandardToken) (r : String) : Option StandardToken :=
  ts.foldl (fun acc t => if t.name = r then some t else acc) none

/-- The `while (currentRef && depth < maxDepth)` loop of
`W3CParser.resolveReferences` (bundled file lines 580–599) for one token,
with `fuel` counting the remaining iterations (`maxDepth - depth`).  The
loop never writes a partial value: it assigns `token.value` only when it
reaches a reference-free target, and the warnings mirror the `console.warn`
calls.  Values of looked-up tokens are only read when those tokens carry no
reference, and such tokens are never mutated by the resolver, so passing the
pre-resolution map is equivalent to the JS in-place mutation. -/
def resolveLoopW (lookup : String → Option StandardToken) (t : StandardToken) :
    Nat → String → StandardToken × List ResolveWarning
  | 0, _ => (t, [ResolveWarning.circularRef t.name])
  | fuel + 1, ref =>
    match lookup ref with
    | none => (t, [ResolveWarning.unresolvedRef ref t.name])
    | some rt =>
      match rt.references with
      | none => ({ t with value := rt.value }, [])
      | some r₂ => resolveLoopW lookup t fuel r₂

/-- Resolution of a single token: tokens without a reference are untouched;
tokens with one run the chain-following loop with `maxDepth = 10`. -/
def resolveTokenW (lookup : String → Option StandardToken) (t : StandardToken) :
    StandardToken × List ResolveWarning :=
  match t.references with
  | none => (t, [])
  | some r => resolveLoopW lookup t 10 r

/-- The token part of single-token resolution. -/
def resolveOne (lookup : String → Option StandardToken) (t : StandardToken) :
    StandardToken :=
  (resolveTokenW lookup t).1

/-- `W3CParser.resolveReferences` (bundled file lines 571–601): resolve every
token of the list against the name map of the whole list. -/
def resolveReferences (ts : List StandardToken) : List StandardToken :=
  ts.map (fun t => resolveOne (tokenMapLookup ts) t)

/-- The warnings emitted by one run of `W3CParser.resolveReferences`. -/
def resolveWarnings (ts : List StandardToken) : List ResolveWarning :=
  (ts.map (fun t => (resolveTokenW (tokenMapLookup ts) t).2)).flatten

/-- `refAt lookup n r` follows `n` reference hops from `r`: it is `some r'`
exactly when each of the `n` hops lands on a token that exists in the map
and itself carries a reference, `r'` being the reference after the hops. -/
def refAt (lookup : String → Option StandardToken) : Nat → String → Option String
  | 0, r => some r
  | n + 1, r =>
    match lookup r with
    | none => none
    | some rt =>
      match rt.references with
      | none => none
      | some r₂ => refAt lookup n r₂

/-- One token of the legacy W3C parser's flat token object (first document of
the bundled file): `path` and `description` are never read by
`classifyTokens` and are omitted. -/
structure W3CToken where
  type : String
  value : String
  references : Option String
deriving DecidableEq, Repr

/-- `tokens[name]?.type` for the legacy flat token object (keys are unique,
the object being keyed by token name). -/
def w3cLookupType (tokens : List (String × W3CToken)) (r : String) : Option String :=
  (tokens.find? (fun p => p.1 = r)).map (fun p => p.2.type)

/-- Entry loop of the legacy `classifyTokens` (bundled file lines 114–138):
tokens with a `references` field are semantic unless both they and their
reference target are of type `dimension`; tokens without one are primitive.
`all` is the complete token object consulted for the target's type. -/
def classifyGoW3C (all : List (String × W3CToken)) :
    List (String × W3CToken) → List (String × W3CToken) × List (String × W3CToken)
  | [] => ([], [])
  | (n, t) :: rest =>
    let r := classifyGoW3C all rest
    match t.references with
    | none => ((n, t) :: r.1, r.2)
    | some ref =>
      if t.type = "dimension" ∧ w3cLookupType all ref = some "dimension" then
        ((n, t) :: r.1, r.2)
      else
        (r.1, (n, t) :: r.2)

/-- Legacy `classifyTokens` (bundled file lines 114–138), returning
`(primitives, semantics)` in entry order. -/
def classifyTokensW3C (tokens : List (String × W3CToken)) :
    List (String × W3CToken) × List (String × W3CToken) :=
  classifyGoW3C tokens tokens

/-- The `primitivePrefixes` array of `isPrimitivePattern` (bundled file lines
752–757). -/
def primitiveNameMarkers : List String :=
  ["base-", "primitive-", "scale-", "color-", "grey-", "gray-",
   "red-", "blue-", "green-", "yellow-", "orange-", "purple-", "pink-",
   "spacing-", "radius-", "font-size-"]

/-- The `semanticPrefixes` array of `isSemanticPattern` (bundled file lines
761–766). -/
def semanticNameMarkers : List String :=
  ["semantic-", "system-", "component-",
   "primary-", "secondary-", "accent-", "surface-", "background-",
   "text-", "content-", "border-", "stroke-"]

/-- `isPrimitivePattern` (bundled file lines 751–758):
`name.toLowerCase().includes(marker)` for some primitive marker. -/
def isPrimitivePattern (name : String) : Bool :=
  primitiveNameMarkers.any (fun m => containsSubStr m (strToLower name))

/-- `isSemanticPattern` (bundled file lines 760–767). -/
def isSemanticPattern (name : String) : Bool :=
  semanticNameMarkers.any (fun m => containsSubStr m (strToLower name))

/-- The universal parser's `classifyTokens` (bundled file lines 729–749):
any token carrying a reference is semantic; otherwise the name patterns
decide, defaulting to primitive.  Returns `(primitives, semantics)`. -/
def classifyTokensUniversal :
    List StandardToken → List StandardToken × List StandardToken
  | [] => ([], [])
  | t :: rest =>
    let r := classifyTokensUniversal rest
    if t.references.isSome then (r.1, t :: r.2)
    else if isPrimitivePattern t.name then (t :: r.1, r.2)
    else if isSemanticPattern t.name then (r.1, t :: r.2)
    else (t :: r.1, r.2)

/-- `buildCSSVar` (bundled file lines 1123–1126) with the configured prefix
for the tier passed directly: an empty prefix (falsy in JS) yields a bare
`--name` custom property. -/
def buildCSSVar (pfx : String) (tokenName : String) : String :=
  if pfx ≠ "" then "--" ++ pfx ++ "-" ++ tokenName else "--" ++ tokenName

/-- Concatenation of a list of strings, as the JS `css += ...` accumulation. -/
def strConcat : List String → String
  | [] => ""
  | s :: rest => s ++ strConcat rest

/-- `generateCSSVariables` (bundled file lines 808–834) for string-valued
tokens: the fixed header, one `  --[pfx-]name: value;` line per token (the
token's value inlined verbatim), and the closing brace.  This is the
function `transformAndOutput` (lines 994–1002) applies to each semantic
group with `CONFIG.cssPrefix.semantic`. -/
def generateCSSVariables (tokens : List StandardToken) (pfx : String) : String :=
  "/**\n * Auto-generated CSS Variables\n * DO NOT EDIT MANUALLY\n */\n\n:root \x7b\n" ++
  strConcat (tokens.map (fun t =>
    "  " ++ buildCSSVar pfx t.name ++ ": " ++ t.value ++ ";\n")) ++
  "\x7d\n"

/-- One group block of the CSS emitted by `transformSemanticColors` (bundled
file lines 1944–1951): a comment naming the group, then one
`  <semantic var>: var(<primitive var>);` line per `(key, primitiveRef)`
entry, then a blank line. -/
def semanticGroupCss (semPfx primPfx : String) (gname : String)
    (entries : List (String × String)) : String :=
  "  /* " ++ gname ++ " Colors */\n" ++
  strConcat (entries.map (fun e =>
    "  " ++ buildCSSVar semPfx e.1 ++ ": var(" ++ buildCSSVar primPfx e.2 ++ ");\n")) ++
  "\n"

/-- The CSS artifact built by `transformSemanticColors` (bundled file lines
1935–1953) from the processed semantic groups: header comment, `:root`
block of group blocks, closing brace. -/
def transformSemanticColorsCss (semPfx primPfx : String)
    (groups : List (String × List (String × String))) : String :=
  "/**\n * Semantic Color Tokens - Auto-generated from Figma\n * Source: imported-from-figma/Colors.json\n * DO NOT EDIT MANUALLY - Run 'npm run tokens:transform' to regenerate\n */\n\n:root \x7b\n" ++
  strConcat (groups.map (fun g => semanticGroupCss semPfx primPfx g.1 g.2)) ++
  "\x7d\n"

mutual

/-- Parsed JSON documents as the token files contain them: strings, numbers
and objects with insertion-ordered entries (arrays, booleans and null do not
occur in the documents the detection claims are about).  Object entry lists
are mirrored as the mutual inductive `JsonEntries` so that all recursions
over documents are structural. -/
inductive Json where
  | str : String → Json
  | num : Int → Json
  | obj : JsonEntries → Json

inductive JsonEntries where
  | nil : JsonEntries
  | cons : String → Json → JsonEntries → JsonEntries

end

/-- JS property lookup `obj[k]` / the `"k" in obj` test on object entries. -/
def findKeyJson : JsonEntries → String → Option Json
  | .nil, _ => none
  | .cons k v rest, key => if k = key then some v else findKeyJson rest key

/-- JSON escaping of one character, as `JSON.stringify` performs it. -/
def escJsonChar (c : Char) : String :=
  if c = '"' then "\\\""
  else if c = '\\' then "\\\\"
  else if c = Char.ofNat 8 then "\\b"
  else if c = Char.ofNat 9 then "\\t"
  else if c = Char.ofNat 10 then "\\n"
  else if c = Char.ofNat 12 then "\\f"
  else if c = Char.ofNat 13 then "\\r"
  else if c.toNat < 32 then
    "\\u00" ++ String.mk [(Nat.digitChar (c.toNat / 16)), (Nat.digitChar (c.toNat % 16))]
  else String.mk [c]

/-- JSON string quoting. -/
def quoteJson (s : String) : String :=
  "\"" ++ strConcat (s.toList.map escJsonChar) ++ "\""

mutual

/-- `JSON.stringify` (no spacing), the serialisation `detectTokenFormat`'s
helpers inspect. -/
def stringifyJson : Json → String
  | .str s => quoteJson s
  | .num n => toString n
  | .obj es => "\x7b" ++ stringifyEntries es ++ "\x7d"

/-- Serialisation of object entries, comma-separated. -/
def stringifyEntries : JsonEntries → String
  | .nil => ""
  | .cons k v .nil => quoteJson k ++ ":" ++ stringifyJson v
  | .cons k v rest => quoteJson k ++ ":" ++ stringifyJson v ++ "," ++ stringifyEntries rest

end

/-- Scanner for one global pass of `str.replace(/\x7b[^\x7b\x7d]*\x7d/g, "")`.
The first argument is the pending match candidate: `some acc` records that a
`\x7b` was seen and `acc` holds (reversed) the non-brace characters read
since.  A `\x7d` completes the candidate and deletes it; another `\x7b`
makes the old candidate fail (a match's interior admits no braces), so it is
emitted verbatim — no match can start inside it — and a new candidate
starts; the end of input emits an unfinished candidate verbatim. -/
def stripInnermostGo : Option (List Char) → List Char → List Char
  | none, [] => []
  | some acc, [] => lbr :: acc.reverse
  | none, c :: rest =>
    if c = lbr then stripInnermostGo (some []) rest
    else c :: stripInnermostGo none rest
  | some acc, c :: rest =>
    if c = rbr then stripInnermostGo none rest
    else if c = lbr then (lbr :: acc.reverse) ++ stripInnermostGo (some []) rest
    else stripInnermostGo (some (c :: acc)) rest

/-- One global pass of `str.replace(/\x7b[^\x7b\x7d]*\x7d/g, "")`: scanning
left to right, each `\x7b` followed by a run of non-brace characters and
then `\x7d` is deleted together with that run; everything else is kept. -/
def stripInnermost (s : List Char) : List Char :=
  stripInnermostGo none s

/-- The test `/\x7b[^\x7d]+\x7d/.test(str)`: some `\x7b` is followed by a
non-empty run of non-`\x7d` characters and then `\x7d`. -/
def hasBraceGap : List Char → Bool
  | [] => false
  | c :: rest =>
    (c = lbr &&
      (match rest.dropWhile (fun d => d ≠ rbr) with
       | d :: _ => d = rbr && !(rest.takeWhile (fun d => d ≠ rbr)).isEmpty
       | [] => false)) ||
    hasBraceGap rest

/-- `hasW3CFormat` (bundled file lines 396–402): the serialised document
contains the exact quoted tokens `"$type"` or `"$value"`, or still contains
a brace pair with non-empty content after one global deletion of innermost
brace pairs (note the serialisation's own structural braces take part in
this test). -/
def hasW3CFormat (data : Json) : Bool :=
  let s := (stringifyJson data).toList
  containsSub ("\"$type\"".toList) s ||
  containsSub ("\"$value\"".toList) s ||
  hasBraceGap (stripInnermost s)

/-- `hasTokensStudioFormat` (bundled file lines 410–415). -/
def hasTokensStudioFormat (data : Json) : Bool :=
  let s := stringifyJson data
  containsSubStr "\"type\":\"" s &&
  (containsSubStr "\"value\":" s || containsSubStr "\"$value\":" s)

/-- `hasStyleDictionaryFormat` (bundled file lines 417–424): the first
top-level value is an object exposing both `value` and `type` keys. -/
def hasStyleDictionaryFormat : Json → Bool
  | .obj (.cons _ (.obj inner) _) =>
    (findKeyJson inner "value").isSome && (findKeyJson inner "type").isSome
  | _ => false

/-- The `values.every(...)` body of `hasSimpleFormat`. -/
def allSimpleValues : JsonEntries → Bool
  | .nil => true
  | .cons _ v rest =>
    (match v with
     | .str _ => true
     | .num _ => true
     | .obj inner =>
       (findKeyJson inner "$type").isNone && (findKeyJson inner "type").isNone) &&
    allSimpleValues rest

/-- `hasSimpleFormat` (bundled file lines 426–434): every top-level value is
a string, a number, or an object without `$type`/`type` keys. -/
def hasSimpleFormat : Json → Bool
  | .obj es => allSimpleValues es
  | _ => false

/-- The `format` field of `detectTokenFormat`'s result. -/
inductive TokenFormat where
  | w3c
  | tokensStudio
  | styleDictionary
  | simple
  | unknown
deriving DecidableEq, Repr

/-- `detectTokenFormat` (bundled file lines 348–394), first match wins; the
`version`/`confidence`/`category` fields of the JS result are not modelled,
and the filename only feeds the unmodelled `category`. -/
def detectTokenFormat (data : Json) (_filename : String) : TokenFormat :=
  if hasW3CFormat data then .w3c
  else if hasTokensStudioFormat data then .tokensStudio
  else if hasStyleDictionaryFormat data then .styleDictionary
  else if hasSimpleFormat data then .simple
  else .unknown

/-- Test for the reference regex `/^\x7b[^\x7d]+\x7d$/`: the whole string is
a brace pair with non-empty content free of `\x7d`. -/
def isBraceRefStr (s : String) : Bool :=
  match s.toList with
  | c :: rest =>
    c = lbr && rest.getLast? = some rbr &&
    !(rest.dropLast.isEmpty) && rest.dropLast.all (fun d => d ≠ rbr)
  | [] => false

mutual

/-- Stated from claim C9's words, for comparison with `hasW3CFormat`: the
document contains a key starting with `$type` or `$value`, or some string
value matching the brace-wrapped reference syntax. -/
def specW3CTest : Json → Bool
  | .str s => isBraceRefStr s
  | .num _ => false
  | .obj es => specW3CEntries es

/-- Entry scan for `specW3CTest`. -/
def specW3CEntries : JsonEntries → Bool
  | .nil => false
  | .cons k v rest =>
    startsWithStr k "$type" || startsWithStr k "$value" ||
    specW3CTest v || specW3CEntries rest

end

/-- Helper building `JsonEntries` from a list, for writing concrete documents. -/
def jsonEntriesOfList (l : List (String × Json)) : JsonEntries :=
  l.foldr (fun p acc => JsonEntries.cons p.1 p.2 acc) .nil

/-- Concrete primitive palette for the colour-synthesis instances: one green
primitive. -/
def cePrimitives : List (String × String) := [("green-05", "#00b884")]

/-- Concrete semantic colour group for the colour-synthesis instances: one
colour identical to the green primitive (distance 0) and one far from every
primitive. -/
def ceGroup : List SemColor :=
  [⟨"main", "#00b884", "System-main"⟩, ⟨"error", "#ff0000", "System-error"⟩]

/-- Concrete primitive palette for the value-equality instance: a near-black
grey. -/
def ceGreyPrimitives : List (String × String) := [("grey-10", "#0a0a0a")]

/-- Concrete semantic group for the value-equality instance: pure black,
within distance 30 of `grey-10` but not equal to it. -/
def ceBlackGroup : List SemColor := [⟨"x", "#000000", "Text-x"⟩]

/-- Token `a` of the concrete reference cycle `a → b → a`. -/
def ceTokenA : StandardToken := ⟨"a", "\x7bb\x7d", "color", some "b"⟩

/-- Token `b` of the concrete reference cycle. -/
def ceTokenB : StandardToken := ⟨"b", "\x7ba\x7d", "color", some "a"⟩

/-- The two-token set whose reference chains exceed every depth bound. -/
def ceCycleTokens : List StandardToken := [ceTokenA, ceTokenB]

/-- A dimension token referencing another dimension token, for the
classification instances. -/
def ceGapToken : StandardToken := ⟨"gap-m", "\x7bscale.200\x7d", "dimension", some "scale-200"⟩

/-- The referenced dimension scale step. -/
def ceScaleToken : StandardToken := ⟨"scale-200", "16px", "dimension", none⟩

/-- The same two tokens in the legacy parser's flat-object representation. -/
def ceW3CTokens : List (String × W3CToken) :=
  [("gap-m", ⟨"dimension", "\x7bscale.200\x7d", some "scale-200"⟩),
   ("scale-200", ⟨"dimension", "16px", none⟩)]

/-- A semantic colour token holding a resolved literal value, as
`transformAndOutput` passes to `generateCSSVariables` for semantic groups. -/
def ceSemanticToken : StandardToken := ⟨"primary-main", "#00b884", "color", none⟩

/-- A document with one nested object and no `$type`/`$value` key and no
brace-syntax string value. -/
def ceNestedDoc : Json :=
  .obj (jsonEntriesOfList [("colors", .obj (jsonEntriesOfList [("primary", .str "#00ff00")]))])

/-- A flat document whose only key starts with `$type` without being exactly
`$type`. -/
def ceDollarDoc : Json := .obj (jsonEntriesOfList [("$typeFoo", .str "x")])

lemma reorderGo_unchanged (parts : List String) (name : String) :
    ∀ ks : List String,
      (∀ k ∈ ks, ∀ i, List.findIdx? (fun p => p = k) parts = some i → i = 0) →
      reorderGo parts name ks = name := by
  intro ks
  induction ks with
  | nil => intro _; rfl
  | cons k ks ih =>
    intro h
    simp only [reorderGo]
    cases hf : List.findIdx? (fun p => p = k) parts with
    | none => exact ih (fun k' hk' => h k' (List.mem_cons_of_mem _ hk'))
    | some i =>
      have : i = 0 := h k (List.mem_cons_self _ _) i hf
      subst this
      simp only [Nat.lt_irrefl, if_false]
      exact ih (fun k' hk' => h k' (List.mem_cons_of_mem _ hk'))

lemma reorderGo_moves (parts : List String) (name : String) :
    ∀ (pre : List String) (k : String) (post : List String) (i : Nat),
      (∀ k' ∈ pre, ∀ j, List.findIdx? (fun p => p = k') parts = some j → j = 0) →
      List.findIdx? (fun p => p = k) parts = some i → 0 < i →
      reorderGo parts name (pre ++ k :: post) =
        joinDash (parts.getD i "" :: parts.eraseIdx i) := by
  intro pre
  induction pre with
  | nil =>
    intro k post i _ hf hi
    simp only [List.nil_append, reorderGo, hf, hi, if_true]
  | cons k' pre ih =>
    intro k post i hpre hf hi
    simp only [List.cons_append, reorderGo]
    cases hf' : List.findIdx? (fun p => p = k') parts with
    | none => exact ih k post i (fun q hq => hpre q (List.mem_cons_of_mem _ hq)) hf hi
    | some j =>
      have : j = 0 := hpre k' (List.mem_cons_self _ _) j hf'
      subst this
      simp only [Nat.lt_irrefl, if_false]
      exact ih k post i (fun q hq => hpre q (List.mem_cons_of_mem _ hq)) hf hi

/-- C7 counterexample: with category keywords `["text", "background"]`, the
name `"text-background-primary"` has the configured keyword `"text"` as its
first segment, yet `reorderSemanticToken` does not return it unchanged — the
loop skips the leading keyword and moves `"background"` to the front. -/
theorem c7_counterexample :
    reorderSemanticToken true ["text", "background"] "text-background-primary" =
      "background-text-primary" ∧
    "background-text-primary" ≠ "text-background-primary" := by
  decide

/-- C7 amended: with reordering enabled, a name is returned unchanged when
every configured keyword's first occurrence among the segments is at the
leading position or absent; and when `k` is the first keyword in
configuration order whose first occurrence among the segments is at a
positive index `i`, segment `i` is spliced out and moved to the front.  (In
particular a name whose first segment is a keyword is still reordered when a
different configured keyword occurs later.) -/
theorem c7_amended (keywords : List String) (name : String) :
    ((∀ k ∈ keywords, ∀ i,
        List.findIdx? (fun p => p = k) (splitDash name) = some i → i = 0) →
      reorderSemanticToken true keywords name = name) ∧
    (∀ (pre : List String) (k : String) (post : List String) (i : Nat),
      keywords = pre ++ k :: post →
      (∀ k' ∈ pre, ∀ j,
        List.findIdx? (fun p => p = k') (splitDash name) = some j → j = 0) →
      List.findIdx? (fun p => p = k) (splitDash name) = some i → 0 < i →
      reorderSemanticToken true keywords name =
        joinDash ((splitDash name).getD i "" :: (splitDash name).eraseIdx i)) := by
  constructor
  · intro h
    simp only [reorderSemanticToken, Bool.not_true, Bool.false_eq_true, if_false]
    exact reorderGo_unchanged _ _ _ h
  · intro pre k post i hkw hpre hf hi
    simp only [reorderSemanticToken, Bool.not_true, Bool.false_eq_true, if_false, hkw]
    exact reorderGo_moves _ _ pre k post i hpre hf hi

/-- C7 witness: scenario C of the specification, instantiating the amended
theorem — `"primary-black-text"` moves the configured keyword `"text"` to
the front and `"primary-main"` (no keyword present) is unchanged. -/
theorem c7_amended_witness :
    reorderSemanticToken true ["text"] "primary-main" = "primary-main" ∧
    reorderSemanticToken true ["text"] "primary-black-text" = "text-primary-black" := by
  constructor
  · exact (c7_amended ["text"] "primary-main").1 (by decide)
  · have h := (c7_amended ["text"] "primary-black-text").2 [] "text" [] 2 rfl
      (by simp) (by decide) (by decide)
    rw [h]
    decide

/-- C8: the name-cleanup scenarios — a first segment redundant with the
second is dropped (`"Radius-radius-small"`), the `"Secondary"` wrapper label
of a three-segment path is dropped and letter-digit boundaries are hyphenated
(`"Secondary-Brown-brown00"`), and camelCase boundaries are hyphenated with
lowercasing (`"Primary-primaryMain"`). -/
theorem c8_name_cleanup_scenarios :
    cleanTokenName "Radius-radius-small" = "radius-small" ∧
    cleanTokenName "Secondary-Brown-brown00" = "brown-00" ∧
    cleanTokenName "Primary-primaryMain" = "primary-main" := by
  decide

lemma resolveLoopW_fst_name (l : String → Option StandardToken) (t : StandardToken) :
    ∀ fuel r, (resolveLoopW l t fuel r).1.name = t.name := by
  intro fuel
  induction fuel with
  | zero => intro r; rfl
  | succ n ih =>
    intro r
    cases hr : l r with
    | none => simp [resolveLoopW, hr]
    | some rt =>
      cases hrt : rt.references with
      | none => simp [resolveLoopW, hr, hrt]
      | some r₂ =>
        simp only [resolveLoopW, hr, hrt]
        exact ih r₂

lemma resolveLoopW_fst_references (l : String → Option StandardToken) (t : StandardToken) :
    ∀ fuel r, (resolveLoopW l t fuel r).1.references = t.references := by
  intro fuel
  induction fuel with
  | zero => intro r; rfl
  | succ n ih =>
    intro r
    cases hr : l r with
    | none => simp [resolveLoopW, hr]
    | some rt =>
      cases hrt : rt.references with
      | none => simp [resolveLoopW, hr, hrt]
      | some r₂ =>
        simp only [resolveLoopW, hr, hrt]
        exact ih r₂

lemma resolveOne_name (l : String → Option StandardToken) (t : StandardToken) :
    (resolveOne l t).name = t.name := by
  cases h : t.references with
  | none => simp [resolveOne, resolveTokenW, h]
  | some r =>
    simp only [resolveOne, resolveTokenW, h]
    exact resolveLoopW_fst_name l t 10 r

lemma resolveOne_references (l : String → Option StandardToken) (t : StandardToken) :
    (resolveOne l t).references = t.references := by
  cases h : t.references with
  | none => simp [resolveOne, resolveTokenW, h]
  | some r =>
    simp only [resolveOne, resolveTokenW, h]
    rw [resolveLoopW_fst_references l t 10 r, h]

lemma resolveOne_of_refs_none (l : String → Option StandardToken) (t : StandardToken)
    (h : t.references = none) : resolveOne l t = t := by
  simp [resolveOne, resolveTokenW, h]

lemma tokenMapLookup_map (f : StandardToken → StandardToken)
    (hf : ∀ u, (f u).name = u.name) (ts : List StandardToken) (r : String) :
    tokenMapLookup (ts.map f) r = (tokenMapLookup ts r).map f := by
  unfold tokenMapLookup
  suffices h : ∀ init : Option StandardToken,
      (ts.map f).foldl (fun acc t => if t.name = r then some t else acc) (init.map f) =
        (ts.foldl (fun acc t => if t.name = r then some t else acc) init).map f by
    exact h none
  induction ts with
  | nil => intro init; rfl
  | cons t ts ih =>
    intro init
    simp only [List.map_cons, List.foldl_cons, hf t]
    by_cases ht : t.name = r
    · simp only [ht, if_true]
      have : some (f t) = (some t).map f := rfl
      rw [this]
      exact ih (some t)
    · simp only [ht, if_false]
      exact ih init

lemma resolveLoopW_congr (l l' : String → Option StandardToken)
    (hl : ∀ s, l' s = (l s).map (resolveOne l)) (t : StandardToken) :
    ∀ fuel r, resolveLoopW l' t fuel r = resolveLoopW l t fuel r := by
  intro fuel
  induction fuel with
  | zero => intro r; rfl
  | succ n ih =>
    intro r
    cases hr : l r with
    | none =>
      have hr' : l' r = none := by rw [hl r, hr]; rfl
      simp [resolveLoopW, hr, hr']
    | some rt =>
      have hr' : l' r = some (resolveOne l rt) := by rw [hl r, hr]; rfl
      cases hrt : rt.references with
      | none =>
        have he : resolveOne l rt = rt := resolveOne_of_refs_none l rt hrt
        rw [he] at hr'
        simp [resolveLoopW, hr, hr', hrt]
      | some r₂ =>
        have h₂ : (resolveOne l rt).references = some r₂ := by
          rw [resolveOne_references, hrt]
        simp only [resolveLoopW, hr, hr', hrt, h₂]
        exact ih r₂

lemma resolveLoopW_idem (l : String → Option StandardToken) (t : StandardToken) :
    ∀ fuel r,
      (resolveLoopW l ((resolveLoopW l t fuel r).1) fuel r).1 =
        (resolveLoopW l t fuel r).1 := by
  intro fuel
  induction fuel with
  | zero => intro r; rfl
  | succ n ih =>
    intro r
    cases hr : l r with
    | none => simp [resolveLoopW, hr]
    | some rt =>
      cases hrt : rt.references with
      | none => simp [resolveLoopW, hr, hrt]
      | some r₂ =>
        simp only [resolveLoopW, hr, hrt]
        exact ih r₂

/-- C4: `W3CParser.resolveReferences` is idempotent — resolving an already
resolved token set returns exactly the same list of tokens, every field
included.  (The second pass follows the same reference chains, which are
unchanged because resolution never clears `references`, and re-assigns the
same terminal values.) -/
theorem c4_resolve_references_idempotent (ts : List StandardToken) :
    resolveReferences (resolveReferences ts) = resolveReferences ts := by
  have hname : ∀ u, (resolveOne (tokenMapLookup ts) u).name = u.name :=
    fun u => resolveOne_name _ u
  have hmap : ∀ r, tokenMapLookup (resolveReferences ts) r =
      (tokenMapLookup ts r).map (fun u => resolveOne (tokenMapLookup ts) u) :=
    fun r => tokenMapLookup_map _ hname ts r
  have hcongr : ∀ u, resolveOne (tokenMapLookup (resolveReferences ts)) u =
      resolveOne (tokenMapLookup ts) u := by
    intro u
    cases hu : u.references with
    | none =>
      rw [resolveOne_of_refs_none _ u hu, resolveOne_of_refs_none _ u hu]
    | some r =>
      simp only [resolveOne, resolveTokenW, hu]
      exact congrArg Prod.fst (resolveLoopW_congr _ _ hmap u 10 r)
  show (resolveReferences ts).map
      (fun t => resolveOne (tokenMapLookup (resolveReferences ts)) t) =
    resolveReferences ts
  rw [List.map_congr_left (fun a _ => hcongr a)]
  show (ts.map fun t => resolveOne (tokenMapLookup ts) t).map
      (fun t => resolveOne (tokenMapLookup ts) t) =
    ts.map fun t => resolveOne (tokenMapLookup ts) t
  rw [List.map_map]
  apply List.map_congr_left
  intro t _
  show resolveOne (tokenMapLookup ts) (resolveOne (tokenMapLookup ts) t) =
    resolveOne (tokenMapLookup ts) t
  cases ht : t.references with
  | none =>
    rw [resolveOne_of_refs_none _ t ht, resolveOne_of_refs_none _ t ht]
  | some r =>
    have h₁ : (resolveOne (tokenMapLookup ts) t).references = some r := by
      rw [resolveOne_references, ht]
    conv_lhs => rw [resolveOne, resolveTokenW]
    simp only [h₁]
    conv_lhs => rw [resolveOne, resolveTokenW]
    simp only [ht]
    conv_rhs => rw [resolveOne, resolveTokenW]
    simp only [ht]
    exact resolveLoopW_idem _ t 10 r

lemma resolveLoopW_circular (l : String → Option StandardToken) (t : StandardToken) :
    ∀ fuel r, (refAt l fuel r).isSome →
      resolveLoopW l t fuel r = (t, [ResolveWarning.circularRef t.name]) := by
  intro fuel
  induction fuel with
  | zero => intro r _; rfl
  | succ n ih =>
    intro r h
    cases hr : l r with
    | none =>
      simp only [refAt, hr] at h
      simp at h
    | some rt =>
      simp only [refAt, hr] at h
      cases hrt : rt.references with
      | none =>
        simp only [hrt] at h
        simp at h
      | some r₂ =>
        simp only [hrt] at h
        simp only [resolveLoopW, hr, hrt]
        exact ih r₂ h

/-- C5: a token whose reference chain still yields a further reference after
the maximum depth of 10 hops is left completely unchanged by the resolver
(its value stays at the value reached, which is its original one — the loop
never writes partial values), a circular-reference warning naming the token
is emitted, and the run is non-fatal: every token of the set still produces
its output token, the result having one output per input. -/
theorem c5_circular_reference_nonfatal (ts : List StandardToken)
    (t : StandardToken) (r : String) (ht : t ∈ ts) (hr : t.references = some r)
    (hchain : (refAt (tokenMapLookup ts) 10 r).isSome) :
    resolveOne (tokenMapLookup ts) t = t ∧
    t ∈ resolveReferences ts ∧
    ResolveWarning.circularRef t.name ∈ resolveWarnings ts ∧
    (resolveReferences ts).length = ts.length := by
  have hloop := resolveLoopW_circular (tokenMapLookup ts) t 10 r hchain
  have h₁ : resolveOne (tokenMapLookup ts) t = t := by
    simp only [resolveOne, resolveTokenW, hr, hloop]
  refine ⟨h₁, ?_, ?_, by simp [resolveReferences]⟩
  · exact List.mem_map.mpr ⟨t, ht, h₁⟩
  · unfold resolveWarnings
    apply List.mem_flatten.mpr
    refine ⟨(resolveTokenW (tokenMapLookup ts) t).2, List.mem_map_of_mem _ ht, ?_⟩
    have h₂ : (resolveTokenW (tokenMapLookup ts) t).2 =
        [ResolveWarning.circularRef t.name] := by
      simp only [resolveTokenW, hr, hloop]
    rw [h₂]
    simp

/-- C5 witness: the two-token cycle `a → b → a` exceeds depth 10; token `a`
is unchanged, the circular warning for `a` is emitted, and both tokens still
produce output. -/
theorem c5_circular_reference_witness :
    resolveOne (tokenMapLookup ceCycleTokens) ceTokenA = ceTokenA ∧
    ceTokenA ∈ resolveReferences ceCycleTokens ∧
    ResolveWarning.circularRef ceTokenA.name ∈ resolveWarnings ceCycleTokens ∧
    (resolveReferences ceCycleTokens).length = ceCycleTokens.length :=
  c5_circular_reference_nonfatal ceCycleTokens ceTokenA "b"
    (by decide) (by decide) (by decide)

lemma classifyGoW3C_mem_prim (all : List (String × W3CToken)) :
    ∀ (rem : List (String × W3CToken)) (n : String) (t : W3CToken) (ref : String),
      (n, t) ∈ rem → t.references = some ref → t.type = "dimension" →
      w3cLookupType all ref = some "dimension" →
      (n, t) ∈ (classifyGoW3C all rem).1 := by
  intro rem
  induction rem with
  | nil => intro n t ref h; simp at h
  | cons p rest ih =>
    intro n t ref hmem href htype hlook
    rcases List.mem_cons.mp hmem with heq | hmem'
    · subst heq
      simp only [classifyGoW3C, href, htype, hlook, and_self, if_true]
      exact List.mem_cons_self _ _
    · have htail := ih n t ref hmem' href htype hlook
      simp only [classifyGoW3C]
      cases hpr : p.2.references with
      | none => exact List.mem_cons_of_mem _ htail
      | some ref' =>
        by_cases hc : p.2.type = "dimension" ∧ w3cLookupType all ref' = some "dimension"
        · simp only [hc, if_true]
          exact List.mem_cons_of_mem _ htail
        · simp only [hc, if_false]
          exact htail

lemma classifyGoW3C_mem_sem (all : List (String × W3CToken)) :
    ∀ (rem : List (String × W3CToken)) (n : String) (t : W3CToken) (ref : String),
      (n, t) ∈ rem → t.references = some ref →
      ¬(t.type = "dimension" ∧ w3cLookupType all ref = some "dimension") →
      (n, t) ∈ (classifyGoW3C all rem).2 := by
  intro rem
  induction rem with
  | nil => intro n t ref h; simp at h
  | cons p rest ih =>
    intro n t ref hmem href hc
    rcases List.mem_cons.mp hmem with heq | hmem'
    · subst heq
      simp only [classifyGoW3C, href, hc, if_false]
      exact List.mem_cons_self _ _
    · have htail := ih n t ref hmem' href hc
      simp only [classifyGoW3C]
      cases hpr : p.2.references with
      | none => exact htail
      | some ref' =>
        by_cases hc' : p.2.type = "dimension" ∧ w3cLookupType all ref' = some "dimension"
        · simp only [hc', if_true]
          exact htail
        · simp only [hc', if_false]
          exact List.mem_cons_of_mem _ htail

lemma classifyTokensUniversal_mem_sem :
    ∀ (ts : List StandardToken) (t : StandardToken),
      t ∈ ts → t.references.isSome → t ∈ (classifyTokensUniversal ts).2 := by
  intro ts
  induction ts with
  | nil => intro t h; simp at h
  | cons u rest ih =>
    intro t hmem href
    rcases List.mem_cons.mp hmem with heq | hmem'
    · subst heq
      simp only [classifyTokensUniversal, href, if_true]
      exact List.mem_cons_self _ _
    · have htail := ih t hmem' href
      simp only [classifyTokensUniversal]
      by_cases h₁ : u.references.isSome
      · simp only [h₁, if_true]
        exact List.mem_cons_of_mem _ htail
      · simp only [h₁, if_false]
        by_cases h₂ : isPrimitivePattern u.name
        · simp only [h₂, if_true]
          exact htail
        · simp only [h₂, if_false]
          by_cases h₃ : isSemanticPattern u.name
          · simp only [h₃, if_true]
            exact List.mem_cons_of_mem _ htail
          · simp only [h₃, if_false]
            exact htail

/-- C6 counterexample: in the universal parser's classifier a dimension token
referencing another dimension token is classified semantic, not primitive —
the dimension-to-dimension exception exists only in the legacy classifier.
`ceGapToken` has type `dimension`, carries a reference to `ceScaleToken`
(also of type `dimension`), and lands in the semantics list. -/
theorem c6_counterexample :
    ceGapToken.type = "dimension" ∧
    ceGapToken.references = some "scale-200" ∧
    ceScaleToken.name = "scale-200" ∧
    ceScaleToken.type = "dimension" ∧
    (classifyTokensUniversal [ceGapToken, ceScaleToken]).2 = [ceGapToken] ∧
    (classifyTokensUniversal [ceGapToken, ceScaleToken]).1 = [ceScaleToken] := by
  decide

/-- C6 amended: the legacy W3C classifier behaves as the claim states — a
reference-carrying token is semantic unless both it and its reference target
have type `dimension`, in which case it is primitive; the universal parser's
classifier instead labels every reference-carrying token semantic, with no
dimension exception. -/
theorem c6_amended_classifier_exception (all : List (String × W3CToken))
    (n : String) (t : W3CToken) (ref : String)
    (hmem : (n, t) ∈ all) (href : t.references = some ref) :
    ((t.type = "dimension" ∧ w3cLookupType all ref = some "dimension") →
      (n, t) ∈ (classifyTokensW3C all).1) ∧
    (¬(t.type = "dimension" ∧ w3cLookupType all ref = some "dimension") →
      (n, t) ∈ (classifyTokensW3C all).2) ∧
    (∀ (ts : List StandardToken) (u : StandardToken),
      u ∈ ts → u.references.isSome → u ∈ (classifyTokensUniversal ts).2) := by
  refine ⟨fun hc => ?_, fun hc => ?_, classifyTokensUniversal_mem_sem⟩
  · exact classifyGoW3C_mem_prim all all n t ref hmem href hc.1 hc.2
  · exact classifyGoW3C_mem_sem all all n t ref hmem href hc

/-- C6 witness: the legacy classifier puts the dimension-referencing
dimension token `gap-m` among the primitives, and the universal classifier
puts the corresponding `StandardToken` among the semantics. -/
theorem c6_amended_witness :
    ("gap-m", (⟨"dimension", "\x7bscale.200\x7d", some "scale-200"⟩ : W3CToken)) ∈
      (classifyTokensW3C ceW3CTokens).1 ∧
    ceGapToken ∈ (classifyTokensUniversal [ceGapToken, ceScaleToken]).2 := by
  have h := c6_amended_classifier_exception ceW3CTokens "gap-m"
    ⟨"dimension", "\x7bscale.200\x7d", some "scale-200"⟩ "scale-200"
    (by decide) (by decide)
  exact ⟨h.1 (by decide), h.2.2 [ceGapToken, ceScaleToken] ceGapToken (by decide) (by decide)⟩

/-- C9 counterexample: `detectTokenFormat` does not return `w3c` exactly for
the documents matching the claim's test.  The nested document
`\x7b"colors": \x7b"primary": "#00ff00"\x7d\x7d` has no key starting with
`$type`/`$value` and no brace-syntax string value, yet is detected as `w3c`
(its own structural braces survive the innermost-brace deletion); conversely
`\x7b"$typeFoo": "x"\x7d` has a key starting with `$type` but is detected as
`simple` (the serialisation contains no exact `"$type"` token and the flat
document leaves no brace residue). -/
theorem c9_counterexample :
    detectTokenFormat ceNestedDoc "colors.tokens.json" = TokenFormat.w3c ∧
    specW3CTest ceNestedDoc = false ∧
    detectTokenFormat ceDollarDoc "colors.tokens.json" = TokenFormat.simple ∧
    specW3CTest ceDollarDoc = true := by
  decide

/-- C9 amended: detection checks the W3C shape first and returns `w3c`
exactly for the documents passing `hasW3CFormat` — a test of the JSON
serialisation: it contains the exact quoted token `"$type"` or `"$value"`,
or a brace pair with non-empty content survives one global deletion of
innermost brace pairs (which holds for any document with nested objects,
regardless of reference syntax, since the serialisation's own braces are
inspected).  A document is detected as `tokens-studio`, `style-dictionary`
or `simple` only when this test fails (first match wins). -/
theorem c9_amended_detection_order (data : Json) (fname : String) :
    detectTokenFormat data fname = TokenFormat.w3c ↔ hasW3CFormat data = true := by
  unfold detectTokenFormat
  split_ifs with h₁ h₂ h₃ h₄ <;> simp_all

lemma isPrefixOf_append_self (p c : List Char) : p.isPrefixOf (p ++ c) = true := by
  induction p with
  | nil => simp [List.isPrefixOf]
  | cons a p ih => simp [List.isPrefixOf, ih]

lemma containsSub_append_right (p b : List Char) :
    ∀ a, containsSub p b = true → containsSub p (a ++ b) = true := by
  intro a
  induction a with
  | nil => intro h; simpa using h
  | cons c a ih =>
    intro h
    simp only [List.cons_append, containsSub, Bool.or_eq_true]
    exact Or.inr (ih h)

lemma containsSub_append_left (p : List Char) :
    ∀ a b, containsSub p a = true → containsSub p (a ++ b) = true := by
  intro a
  induction a with
  | nil =>
    intro b h
    simp only [containsSub, List.isEmpty_iff] at h
    subst h
    cases b with
    | nil => rfl
    | cons x xs => simp [containsSub, List.isPrefixOf]
  | cons c a ih =>
    intro b h
    simp only [containsSub, Bool.or_eq_true] at h ⊢
    rcases h with h | h
    · left
      have := List.isPrefixOf_iff_prefix.mp h
      exact List.isPrefixOf_iff_prefix.mpr (this.trans (List.prefix_append _ _))
    · right
      exact ih b h

lemma containsSub_self_append (p c : List Char) : containsSub p (p ++ c) = true := by
  cases p with
  | nil =>
    cases c with
    | nil => rfl
    | cons x xs => simp [containsSub, List.isPrefixOf]
  | cons a p' =>
    simp only [List.cons_append, containsSub, Bool.or_eq_true]
    left
    have h : (a :: p').isPrefixOf ((a :: p') ++ c) = true := isPrefixOf_append_self _ _
    simp only [List.cons_append] at h
    exact h

lemma containsSubStr_append_right (pat x y : String) (h : containsSubStr pat y = true) :
    containsSubStr pat (x ++ y) = true := by
  unfold containsSubStr at h ⊢
  have hx : (x ++ y).toList = x.toList ++ y.toList := String.data_append x y
  rw [hx]
  exact containsSub_append_right _ _ _ h

lemma containsSubStr_append_left (pat x y : String) (h : containsSubStr pat x = true) :
    containsSubStr pat (x ++ y) = true := by
  unfold containsSubStr at h ⊢
  have hx : (x ++ y).toList = x.toList ++ y.toList := String.data_append x y
  rw [hx]
  exact containsSub_append_left _ _ _ h

lemma containsSubStr_self_append (pat y : String) :
    containsSubStr pat (pat ++ y) = true := by
  unfold containsSubStr
  have hx : (pat ++ y).toList = pat.toList ++ y.toList := String.data_append pat y
  rw [hx]
  exact containsSub_self_append _ _

lemma strConcat_append (l₁ l₂ : List String) :
    strConcat (l₁ ++ l₂) = strConcat l₁ ++ strConcat l₂ := by
  induction l₁ with
  | nil => simp [strConcat]
  | cons s l ih => simp [strConcat, ih, String.append_assoc]

/-- C3 amended: every entry `(key, primitiveRef)` of a semantic group
processed by `transformSemanticColors` is emitted into the stylesheet as a
`var(...)` reference to the primitive custom property — the literal text
`: var(<primitive var>);` occurs in the generated CSS for every entry.  (The
universal parser's `transformAndOutput`, by contrast, inlines semantic
values literally; see the counterexample.) -/
theorem c3_amended_semantic_css_var_refs (semPfx primPfx : String)
    (groups : List (String × List (String × String)))
    (g : String) (entries : List (String × String)) (k ref : String)
    (hg : (g, entries) ∈ groups) (he : (k, ref) ∈ entries) :
    containsSubStr (": var(" ++ buildCSSVar primPfx ref ++ ");")
      (transformSemanticColorsCss semPfx primPfx groups) = true := by
  obtain ⟨gpre, gpost, hgs⟩ := List.append_of_mem hg
  obtain ⟨epre, epost, hes⟩ := List.append_of_mem he
  subst hgs
  subst hes
  unfold transformSemanticColorsCss
  apply containsSubStr_append_left
  apply containsSubStr_append_right
  rw [List.map_append, List.map_cons, strConcat_append]
  apply containsSubStr_append_right
  have hcons : ∀ (s : String) (l : List String), strConcat (s :: l) = s ++ strConcat l :=
    fun s l => rfl
  rw [hcons]
  apply containsSubStr_append_left
  unfold semanticGroupCss
  apply containsSubStr_append_left
  apply containsSubStr_append_right
  rw [List.map_append, List.map_cons, strConcat_append]
  apply containsSubStr_append_right
  rw [hcons]
  apply containsSubStr_append_left
  have hline :
      ("  " ++ buildCSSVar semPfx k ++ ": var(" ++ buildCSSVar primPfx ref ++ ");\n") =
        ("  " ++ buildCSSVar semPfx k) ++
          ((": var(" ++ buildCSSVar primPfx ref ++ ");") ++ "\n") := by
    simp [String.append_assoc]
  rw [hline]
  apply containsSubStr_append_right
  exact containsSubStr_self_append _ _

/-- C3 witness: the concrete semantic group `Primary` with entry
`primary-main → green-05`, empty semantic prefix and primitive prefix
`primitive`, yields a stylesheet containing
`: var(--primitive-green-05);`. -/
theorem c3_amended_witness :
    containsSubStr ": var(--primitive-green-05);"
      (transformSemanticColorsCss "" "primitive"
        [("Primary", [("primary-main", "green-05")])]) = true := by
  have h := c3_amended_semantic_css_var_refs "" "primitive"
    [("Primary", [("primary-main", "green-05")])] "Primary"
    [("primary-main", "green-05")] "primary-main" "green-05"
    (by decide) (by decide)
  have he : (": var(" ++ buildCSSVar "primitive" "green-05" ++ ");") =
      ": var(--primitive-green-05);" := by decide
  rw [he] at h
  exact h

/-- C3 counterexample: the universal parser's `transformAndOutput` emits
semantic stylesheet entries through `generateCSSVariables`, which inlines the
token's resolved value — for a semantic colour token with resolved value
`#00b884` the emitted stylesheet contains the literal hex and no `var(`
reference at all. -/
theorem c3_counterexample :
    containsSubStr "#00b884" (generateCSSVariables [ceSemanticToken] "") = true ∧
    containsSubStr "var(" (generateCSSVariables [ceSemanticToken] "") = false ∧
    isSemanticPattern ceSemanticToken.name = true := by
  decide

lemma findAvailable_mem (used names : List String) (h : names ≠ []) :
    findAvailable used names ∈ names := by
  unfold findAvailable
  cases hf : names.find? (fun n => !used.contains n) with
  | some n => exact List.mem_of_find?_eq_some hf
  | none =>
    cases names with
    | nil => exact absurd rfl h
    | cons a l => exact List.mem_cons_self _ _

lemma findAvailable_ne_unknown (used names : List String) (h : names ≠ [])
    (h₂ : "unknown" ∉ names) : findAvailable used names ≠ "unknown" :=
  fun he => h₂ (he ▸ findAvailable_mem used names h)

/-- The hue component of `rgbToHsl` indeed lies in `[0, 360)` — the fact
behind claim C10's phrase that the hue branches cover the entire hue range
(the branch conditions in `pickFamilyName` in fact cover every rational, so
`pickFamilyName_ne_unknown` below needs no range hypothesis). -/
lemma rgbToHsl_hue_range (r g b : Nat) :
    0 ≤ (rgbToHsl r g b).1 ∧ (rgbToHsl r g b).1 < 360 := by
  unfold rgbToHsl
  dsimp only
  set r' : Rat := (r : Rat) / 255 with hr'
  set g' : Rat := (g : Rat) / 255 with hg'
  set b' : Rat := (b : Rat) / 255 with hb'
  set M := max r' (max g' b') with hM
  set m := min r' (min g' b') with hm
  by_cases hMm : M = m
  · simp only [hMm, if_true, if_pos rfl]
    norm_num
  · simp only [hMm, if_false]
    have hle1 : r' ≤ M := le_max_left _ _
    have hle2 : g' ≤ M := le_trans (le_max_left _ _) (le_max_right _ _)
    have hle3 : b' ≤ M := le_trans (le_max_right _ _) (le_max_right _ _)
    have hge1 : m ≤ r' := min_le_left _ _
    have hge2 : m ≤ g' := le_trans (min_le_right _ _) (min_le_left _ _)
    have hge3 : m ≤ b' := le_trans (min_le_right _ _) (min_le_right _ _)
    have hmM : m ≤ M := le_trans hge1 hle1
    have hd : (0 : Rat) < M - m := by
      rcases lt_or_eq_of_le hmM with h | h
      · linarith
      · exact absurd h.symm hMm
    split_ifs with h₁ h₂ h₃
    · -- M = r', g' < b': hue in [300, 360)
      have hq1 : (g' - b') / (M - m) < 0 :=
        div_neg_of_neg_of_pos (by linarith) hd
      have hq2 : (-1 : Rat) ≤ (g' - b') / (M - m) := by
        rw [le_div_iff₀ hd]
        linarith
      constructor <;> dsimp only <;> nlinarith
    · -- M = r', b' ≤ g': hue in [0, 60]
      have hq1 : (g' - b') / (M - m) ≤ 1 := by
        rw [div_le_one hd]
        linarith
      have hq2 : (0 : Rat) ≤ (g' - b') / (M - m) :=
        div_nonneg (by linarith) hd.le
      constructor <;> dsimp only <;> nlinarith
    · -- M = g': hue in [60, 180]
      have hq1 : (b' - r') / (M - m) ≤ 1 := by
        rw [div_le_one hd]
        linarith
      have hq2 : (-1 : Rat) ≤ (b' - r') / (M - m) := by
        rw [le_div_iff₀ hd]
        linarith
      constructor <;> dsimp only <;> nlinarith
    · -- M = b': hue in [180, 300]
      have hq1 : (r' - g') / (M - m) ≤ 1 := by
        rw [div_le_one hd]
        linarith
      have hq2 : (-1 : Rat) ≤ (r' - g') / (M - m) := by
        rw [le_div_iff₀ hd]
        linarith
      constructor <;> dsimp only <;> nlinarith

lemma ite_ne_unknown (c : Prop) [Decidable c] (x y : String)
    (hx : x ≠ "unknown") (hy : y ≠ "unknown") :
    (if c then x else y) ≠ "unknown" := by
  by_cases h : c
  · rw [if_pos h]; exact hx
  · rw [if_neg h]; exact hy

lemma pickFamilyName_ne_unknown (usedNames : List String) (h s l : Rat) :
    pickFamilyName usedNames h s l ≠ "unknown" := by
  unfold pickFamilyName
  dsimp only
  by_cases h₁ : h < 15 ∨ 345 ≤ h
  · rw [if_pos h₁]
    repeat' apply ite_ne_unknown
    all_goals exact findAvailable_ne_unknown _ _ (by simp) (by decide)
  rw [if_neg h₁]
  by_cases h₂ : 15 ≤ h ∧ h < 45
  · rw [if_pos h₂]
    repeat' apply ite_ne_unknown
    all_goals exact findAvailable_ne_unknown _ _ (by simp) (by decide)
  rw [if_neg h₂]
  by_cases h₃ : 45 ≤ h ∧ h < 70
  · rw [if_pos h₃]
    repeat' apply ite_ne_unknown
    all_goals exact findAvailable_ne_unknown _ _ (by simp) (by decide)
  rw [if_neg h₃]
  by_cases h₄ : 70 ≤ h ∧ h < 150
  · rw [if_pos h₄]
    repeat' apply ite_ne_unknown
    all_goals exact findAvailable_ne_unknown _ _ (by simp) (by decide)
  rw [if_neg h₄]
  by_cases h₅ : 150 ≤ h ∧ h < 200
  · rw [if_pos h₅]
    repeat' apply ite_ne_unknown
    all_goals exact findAvailable_ne_unknown _ _ (by simp) (by decide)
  rw [if_neg h₅]
  by_cases h₆ : 200 ≤ h ∧ h < 260
  · rw [if_pos h₆]
    repeat' apply ite_ne_unknown
    all_goals exact findAvailable_ne_unknown _ _ (by simp) (by decide)
  rw [if_neg h₆]
  by_cases h₇ : 260 ≤ h ∧ h < 300
  · rw [if_pos h₇]
    repeat' apply ite_ne_unknown
    all_goals exact findAvailable_ne_unknown _ _ (by simp) (by decide)
  rw [if_neg h₇]
  by_cases h₈ : 300 ≤ h ∧ h < 345
  · rw [if_pos h₈]
    repeat' apply ite_ne_unknown
    all_goals exact findAvailable_ne_unknown _ _ (by simp) (by decide)
  rw [if_neg h₈]
  exfalso
  push_neg at h₁ h₂ h₃ h₄ h₅ h₆ h₇ h₈
  obtain ⟨ha, hb⟩ := h₁
  have k₂ := h₂ ha
  have k₃ := h₃ k₂
  have k₄ := h₄ k₃
  have k₅ := h₅ k₄
  have k₆ := h₆ k₅
  have k₇ := h₇ k₆
  have k₈ := h₈ k₇
  linarith

/-- C10: whenever the median colour of the group parses as a six-digit RGB
hex string, `getPureColorName` returns a name chosen by one of its hue
branches — the branches cover the whole hue range `[0, 360)` and every
branch draws from candidate lists not containing `"unknown"`, so the
`"unknown"` fallback is reached only when the hex string fails to parse. -/
theorem c10_pure_color_name_total (hexValues : List String)
    (existingPrimitives : List (String × String))
    (h : (hexToRgb (hexValues.getD (hexValues.length / 2) "")).isSome) :
    getPureColorName hexValues existingPrimitives ≠ "unknown" := by
  rw [Option.isSome_iff_exists] at h
  obtain ⟨⟨r, g, b⟩, hv⟩ := h
  unfold getPureColorName
  dsimp only
  rw [hv]
  exact pickFamilyName_ne_unknown _ _ _ _

/-- C10 witness: the hardcoded semantic colour `#fba466` of scenario A parses,
so the palette-naming function does not fall back to `"unknown"`. -/
theorem c10_pure_color_name_witness :
    (hexToRgb (["#fba466"].getD (["#fba466"].length / 2) "")).isSome = true ∧
    getPureColorName ["#fba466"] [] ≠ "unknown" :=
  ⟨by decide, c10_pure_color_name_total ["#fba466"] [] (by decide)⟩

lemma lookupKey_cons (p : String × String) (m : List (String × String)) (k : String) :
    lookupKey (p :: m) k = if p.1 = k then some p.2 else lookupKey m k := by
  unfold lookupKey
  by_cases hp : p.1 = k
  · rw [List.find?_cons_of_pos _ (by simpa using hp), if_pos hp]
    rfl
  · rw [List.find?_cons_of_neg _ (by simpa using hp), if_neg hp]

lemma lookupKey_append (m₁ m₂ : List (String × String)) (k : String) :
    lookupKey (m₁ ++ m₂) k = (lookupKey m₁ k).or (lookupKey m₂ k) := by
  unfold lookupKey
  rw [List.find?_append]
  cases List.find? (fun p => p.1 = k) m₁ <;> rfl

lemma lookupKey_eq_none_of_all_ne (m : List (String × String)) (k : String)
    (h : ∀ p ∈ m, p.1 ≠ k) : lookupKey m k = none := by
  unfold lookupKey
  rw [List.find?_eq_none.mpr (by simpa using h)]
  rfl

lemma mem_of_lookupKey_some (m : List (String × String)) (k v : String)
    (h : lookupKey m k = some v) : (k, v) ∈ m := by
  unfold lookupKey at h
  cases hf : List.find? (fun p => p.1 = k) m with
  | none => rw [hf] at h; exact absurd h (by simp)
  | some p =>
    rw [hf] at h
    have hk : p.1 = k := by simpa using List.find?_some hf
    have hv : p.2 = v := by simpa using h
    have := List.mem_of_find?_eq_some hf
    rwa [show (k, v) = p from Prod.ext hk.symm hv.symm]

lemma lookupKey_map_overwrite_ne (m : List (String × String)) (k v k' : String)
    (hne : k' ≠ k) :
    lookupKey (m.map fun p => if p.1 = k then (k, v) else p) k' = lookupKey m k' := by
  induction m with
  | nil => rfl
  | cons p m ih =>
    simp only [List.map_cons]
    by_cases hp : p.1 = k
    · rw [if_pos hp, lookupKey_cons, lookupKey_cons]
      have h₁ : ¬((k, v).1 = k') := fun hc => hne (hc.symm)
      have h₂ : ¬(p.1 = k') := fun hc => hne (hp ▸ hc.symm) |>.elim
      rw [if_neg h₁, if_neg (by rw [hp]; exact fun hc => hne hc.symm)]
      exact ih
    · rw [if_neg hp, lookupKey_cons, lookupKey_cons]
      by_cases hk' : p.1 = k'
      · rw [if_pos hk', if_pos hk']
      · rw [if_neg hk', if_neg hk']
        exact ih

lemma lookupKey_map_overwrite_eq (m : List (String × String)) (k v : String)
    (hany : m.any (fun p => p.1 = k) = true) :
    lookupKey (m.map fun p => if p.1 = k then (k, v) else p) k = some v := by
  induction m with
  | nil => simp at hany
  | cons p m ih =>
    simp only [List.map_cons]
    by_cases hp : p.1 = k
    · rw [if_pos hp, lookupKey_cons]
      rw [if_pos rfl]
    · rw [if_neg hp, lookupKey_cons, if_neg hp]
      apply ih
      simp only [List.any_cons, Bool.or_eq_true] at hany
      rcases hany with h | h
      · exact absurd (by simpa using h) hp
      · exact h

lemma lookupKey_setKey (m : List (String × String)) (k v k' : String) :
    lookupKey (setKey m k v) k' = if k' = k then some v else lookupKey m k' := by
  unfold setKey
  by_cases hany : m.any (fun p => p.1 = k) = true
  · rw [if_pos hany]
    by_cases hk : k' = k
    · subst hk
      rw [if_pos rfl]
      exact lookupKey_map_overwrite_eq m k' v hany
    · rw [if_neg hk]
      exact lookupKey_map_overwrite_ne m k v k' hk
  · rw [if_neg hany]
    rw [lookupKey_append]
    have hnone : lookupKey m k = none := by
      apply lookupKey_eq_none_of_all_ne
      intro p hp
      have hf : m.any (fun p => p.1 = k) = false := eq_false_of_ne_true hany
      have := List.any_eq_false.mp hf p hp
      simpa using this
    by_cases hk : k' = k
    · subst hk
      rw [hnone, if_pos rfl]
      rw [lookupKey_cons]
      simp
    · rw [if_neg hk]
      rw [show lookupKey [(k, v)] k' = none by
        rw [lookupKey_cons]
        rw [if_neg (fun hc => hk hc.symm)]
        rfl]
      cases lookupKey m k' <;> rfl

lemma matchAllColors_all_true (prims : List (String × String)) :
    ∀ (cs : List SemColor) (maps : List (String × String)),
      (∀ c ∈ cs, (findClosestPrimitive c.value prims 30).isSome) →
      (matchAllColors prims cs maps).1 = true := by
  intro cs
  induction cs with
  | nil => intro maps _; rfl
  | cons c cs ih =>
    intro maps hall
    have hc := hall c (List.mem_cons_self _ _)
    rw [Option.isSome_iff_exists] at hc
    obtain ⟨nm, hnm⟩ := hc
    simp only [matchAllColors, hnm]
    exact ih _ (fun c' hc' => hall c' (List.mem_cons_of_mem _ hc'))

lemma matchAllColors_spec (prims : List (String × String)) :
    ∀ (cs : List SemColor) (maps : List (String × String)),
      (matchAllColors prims cs maps).1 = true →
      ∀ v : String,
        ((cs.any (fun c => c.value = v)) = true →
          lookupKey (matchAllColors prims cs maps).2 v = findClosestPrimitive v prims 30) ∧
        ((cs.any (fun c => c.value = v)) = false →
          lookupKey (matchAllColors prims cs maps).2 v = lookupKey maps v) := by
  intro cs
  induction cs with
  | nil =>
    intro maps _ v
    constructor
    · intro h; simp at h
    · intro _; rfl
  | cons c cs ih =>
    intro maps htrue v
    cases hf : findClosestPrimitive c.value prims 30 with
    | none =>
      rw [show (matchAllColors prims (c :: cs) maps).1 =
          (false : Bool) by simp [matchAllColors, hf]] at htrue
      exact absurd htrue (by simp)
    | some nm =>
      have hstep : matchAllColors prims (c :: cs) maps =
          matchAllColors prims cs (setKey maps c.value nm) := by
        simp [matchAllColors, hf]
      rw [hstep] at htrue ⊢
      have ihs := ih (setKey maps c.value nm) htrue
      constructor
      · intro hany
        simp only [List.any_cons, Bool.or_eq_true] at hany
        by_cases hcs : cs.any (fun c => c.value = v) = true
        · exact (ihs v).1 hcs
        · have hcv : c.value = v := by
            rcases hany with h | h
            · simpa using h
            · exact absurd h hcs
          rw [(ihs v).2 (eq_false_of_ne_true hcs), lookupKey_setKey,
            if_pos hcv.symm, ← hcv, hf]
      · intro hany
        rw [List.any_cons, Bool.or_eq_false_iff] at hany
        obtain ⟨h₁, h₂⟩ := hany
        have hne : ¬(c.value = v) := of_decide_eq_false h₁
        rw [(ihs v).2 h₂, lookupKey_setKey, if_neg (fun hc => hne hc.symm)]

/-- C1 amended, positive direction: when every colour of the group is within
the distance threshold of some primitive, each colour is mapped onto the name
returned by `findClosestPrimitive` (its nearest primitive) and no palette is
synthesized.  (When any colour of the group is too far from every primitive,
the whole group — including its close colours — is re-pointed at a freshly
synthesized palette; see the counterexample.) -/
theorem c1_amended_group_matching (prims : List (String × String)) (gname : String)
    (colors : List SemColor)
    (hall : ∀ c ∈ colors, (findClosestPrimitive c.value prims 30).isSome) :
    (extractHardcodedSemanticValues [(gname, colors)] prims).1 = [] ∧
    ∀ c ∈ colors,
      lookupKey (extractHardcodedSemanticValues [(gname, colors)] prims).2 c.value =
        findClosestPrimitive c.value prims 30 := by
  cases colors with
  | nil =>
    refine ⟨rfl, ?_⟩
    intro c hc
    simp at hc
  | cons c₀ ctail =>
    have htrue := matchAllColors_all_true prims (c₀ :: ctail) [] hall
    have hunfold : extractHardcodedSemanticValues [(gname, c₀ :: ctail)] prims =
        ([], (matchAllColors prims (c₀ :: ctail) []).2) := by
      unfold extractHardcodedSemanticValues processGroups
      rw [if_neg (by simp)]
      dsimp only
      rw [if_pos htrue]
      rfl
    rw [hunfold]
    refine ⟨rfl, ?_⟩
    intro c hc
    exact (matchAllColors_spec prims (c₀ :: ctail) [] htrue c.value).1
      (List.any_eq_true.mpr ⟨c, hc, by simp⟩)

/-- C1 witness: a single-colour group whose colour `#000000` is within
distance 30 of the grey primitive maps onto that primitive and synthesizes
nothing. -/
theorem c1_amended_witness :
    (extractHardcodedSemanticValues [("Text", ceBlackGroup)] ceGreyPrimitives).1 = [] ∧
    ∀ c ∈ ceBlackGroup,
      lookupKey (extractHardcodedSemanticValues [("Text", ceBlackGroup)] ceGreyPrimitives).2
          c.value =
        findClosestPrimitive c.value ceGreyPrimitives 30 :=
  c1_amended_group_matching ceGreyPrimitives "Text" ceBlackGroup (by decide)

/-- C1 counterexample: in the group `ceGroup` the colour `#00b884` is at
distance 0 from the primitive `green-05` (well within the threshold), yet
because its group-mate `#ff0000` has no close primitive, the whole group is
synthesized into a new `ruby` palette: `#00b884` ends up mapped to the new
palette entry `ruby-01` — not to `green-05` — and a new palette entry is
created for it. -/
theorem c1_counterexample :
    findClosestPrimitive "#00b884" cePrimitives 30 = some "green-05" ∧
    lookupKey (extractHardcodedSemanticValues [("System", ceGroup)] cePrimitives).2
        "#00b884" = some "ruby-01" ∧
    lookupKey (extractHardcodedSemanticValues [("System", ceGroup)] cePrimitives).1
        "ruby-01" = some "#00b884" ∧
    "ruby-01" ≠ "green-05" := by
  have hpure : getPureColorName (ceGroup.map (fun c => c.value)) (mergeAssoc cePrimitives []) =
      "ruby" := by
    have h₁ : hexToRgb ((ceGroup.map (fun c => c.value)).getD
        ((ceGroup.map (fun c => c.value)).length / 2) "") = some (255, 0, 0) := by decide
    have h₂ : rgbToHsl 255 0 0 = (0, 100, 50) := by
      norm_num [rgbToHsl, max_def, min_def]
    simp only [getPureColorName, h₁, h₂]
    norm_num [pickFamilyName]
    decide
  have hmatch : matchAllColors cePrimitives ceGroup [] =
      (false, [("#00b884", "green-05")]) := by decide
  have hsort : sortByLightness ceGroup =
      [⟨"error", "#ff0000", "System-error"⟩, ⟨"main", "#00b884", "System-main"⟩] := by decide
  refine ⟨by decide, ?_, ?_, by decide⟩ <;>
  · simp only [extractHardcodedSemanticValues, processGroups, hmatch, hsort, hpure]
    decide

lemma ltOpt_isSome (d e : Option Int) (h : ltOpt d e = true) : ∃ dd, d = some dd := by
  cases d with
  | none => cases e <;> simp [ltOpt] at h
  | some dd => exact ⟨dd, rfl⟩

lemma findClosest_fold_inv (hx : String) (prims : List (String × String)) :
    ∀ (l : List (String × String)) (acc : Option String × Option Int),
      (∀ x ∈ l, x ∈ prims) →
      ((acc.1 = none ∧ acc.2 = none) ∨
        ∃ n dd v, acc.1 = some n ∧ acc.2 = some dd ∧ (n, v) ∈ prims ∧
          colorDistSq hx v = some dd) →
      (let res := l.foldl
        (fun (acc : Option String × Option Int) p =>
          let d := colorDistSq hx p.2
          if ltOpt d acc.2 then (some p.1, d) else acc) acc
       (res.1 = none ∧ res.2 = none) ∨
        ∃ n dd v, res.1 = some n ∧ res.2 = some dd ∧ (n, v) ∈ prims ∧
          colorDistSq hx v = some dd) := by
  intro l
  induction l with
  | nil => intro acc _ hacc; exact hacc
  | cons p l ih =>
    intro acc hsub hacc
    simp only [List.foldl_cons]
    apply ih _ (fun x hx => hsub x (List.mem_cons_of_mem _ hx))
    by_cases hlt : ltOpt (colorDistSq hx p.2) acc.2 = true
    · simp only [hlt, if_true]
      obtain ⟨dd, hdd⟩ := ltOpt_isSome _ _ hlt
      exact Or.inr ⟨p.1, dd, p.2, rfl, by simpa using hdd,
        by simpa using hsub p (List.mem_cons_self _ _), hdd⟩
    · simp only [hlt, if_false]
      exact hacc

lemma findClosestPrimitive_spec (hx : String) (prims : List (String × String))
    (nm : String) (h : findClosestPrimitive hx prims 30 = some nm) :
    ∃ v, (nm, v) ∈ prims ∧ ∃ d : Int, colorDistSq hx v = some d ∧ d ≤ 900 := by
  unfold findClosestPrimitive at h
  dsimp only at h
  have hinv := findClosest_fold_inv hx prims prims (none, none)
    (fun x hx => hx) (Or.inl ⟨rfl, rfl⟩)
  dsimp only at hinv
  set best := prims.foldl
    (fun (acc : Option String × Option Int) p =>
      let d := colorDistSq hx p.2
      if ltOpt d acc.2 then (some p.1, d) else acc) (none, none) with hbest
  rcases hinv with ⟨h₁, h₂⟩ | ⟨n, dd, v, h₁, h₂, hmem, hdist⟩
  · rw [h₂] at h
    simp [leThresholdSq] at h
  · rw [h₂] at h
    by_cases hthr : leThresholdSq (some dd) 30 = true
    · rw [if_pos hthr, h₁] at h
      have hn : n = nm := by simpa using h
      subst hn
      refine ⟨v, hmem, dd, hdist, ?_⟩
      have : dd ≤ 30 * 30 := by simpa [leThresholdSq] using hthr
      linarith
    · rw [if_neg hthr] at h
      exact absurd h (by simp)

lemma mem_insertByLight (x a : SemColor) :
    ∀ l, a ∈ insertByLight x l ↔ a = x ∨ a ∈ l := by
  intro l
  induction l with
  | nil => simp [insertByLight]
  | cons y ys ih =>
    simp only [insertByLight]
    by_cases hle : lightGe x y = true
    · rw [if_pos hle]
      simp only [List.mem_cons]
    · rw [if_neg hle]
      simp only [List.mem_cons, ih]
      tauto

lemma mem_sortByLightness (a : SemColor) :
    ∀ colors, a ∈ sortByLightness colors ↔ a ∈ colors := by
  intro colors
  induction colors with
  | nil => simp [sortByLightness]
  | cons c cs ih =>
    simp only [sortByLightness, mem_insertByLight, ih, List.mem_cons]

lemma length_insertByLight (x : SemColor) :
    ∀ l, (insertByLight x l).length = l.length + 1 := by
  intro l
  induction l with
  | nil => rfl
  | cons y ys ih =>
    simp only [insertByLight]
    by_cases hle : lightGe x y = true
    · simp [hle]
    · simp [hle, ih]

lemma length_sortByLightness :
    ∀ colors : List SemColor, (sortByLightness colors).length = colors.length := by
  intro colors
  induction colors with
  | nil => rfl
  | cons c cs ih => simp [sortByLightness, length_insertByLight, ih]

set_option maxRecDepth 10000 in
set_option maxHeartbeats 1000000 in
lemma padTwo_inj_lt100 : ∀ i j : Fin 100, padTwo i.val = padTwo j.val → i = j := by
  decide

lemma paletteName_ne (pure : String) (i j : Nat) (hij : i ≠ j)
    (hi : i < 100) (hj : j < 100) :
    pure ++ "-" ++ padTwo i ≠ pure ++ "-" ++ padTwo j := by
  intro h
  have hd := congrArg String.data h
  simp only [String.data_append, List.append_assoc] at hd
  have h₁ := List.append_cancel_left hd
  have h₂ := List.append_cancel_left h₁
  have h₃ : padTwo i = padTwo j := String.ext h₂
  have hfin := padTwo_inj_lt100 ⟨i, hi⟩ ⟨j, hj⟩ h₃
  exact hij (congrArg Fin.val hfin)

lemma assignPalette_spec (pure : String) :
    ∀ (cs : List SemColor) (i : Nat) (hard maps : List (String × String)),
      i + cs.length ≤ 100 →
      (∀ p ∈ hard, ∀ j, i ≤ j → j < 100 → p.1 ≠ pure ++ "-" ++ padTwo j) →
      (∀ c ∈ cs, ∃ nm,
          lookupKey (assignPalette pure cs i hard maps).2 c.value = some nm ∧
          lookupKey (assignPalette pure cs i hard maps).1 nm = some c.value) ∧
      (∀ v nm, lookupKey maps v = some nm → lookupKey hard nm = some v →
        ∃ nm', lookupKey (assignPalette pure cs i hard maps).2 v = some nm' ∧
          lookupKey (assignPalette pure cs i hard maps).1 nm' = some v) := by
  intro cs
  induction cs with
  | nil =>
    intro i hard maps _ _
    constructor
    · intro c hc; simp at hc
    · intro v nm h₁ h₂; exact ⟨nm, h₁, h₂⟩
  | cons c cs ih =>
    intro i hard maps hbound hfresh
    have hi100 : i < 100 := by
      simp only [List.length_cons] at hbound
      omega
    have hfresh_i : ∀ p ∈ hard, p.1 ≠ pure ++ "-" ++ padTwo i :=
      fun p hp => hfresh p hp i le_rfl hi100
    have hany : hard.any (fun p => p.1 = pure ++ "-" ++ padTwo i) = false := by
      rw [List.any_eq_false]
      intro p hp
      simpa using hfresh_i p hp
    have hsetKey : setKey hard (pure ++ "-" ++ padTwo i) c.value =
        hard ++ [(pure ++ "-" ++ padTwo i, c.value)] := by
      unfold setKey
      rw [if_neg (by simp [hany])]
    have hstep : assignPalette pure (c :: cs) i hard maps =
        assignPalette pure cs (i + 1)
          (setKey hard (pure ++ "-" ++ padTwo i) c.value)
          (setKey maps c.value (pure ++ "-" ++ padTwo i)) := rfl
    have hbound' : (i + 1) + cs.length ≤ 100 := by
      simp only [List.length_cons] at hbound
      omega
    have hfresh' : ∀ p ∈ setKey hard (pure ++ "-" ++ padTwo i) c.value,
        ∀ j, i + 1 ≤ j → j < 100 → p.1 ≠ pure ++ "-" ++ padTwo j := by
      rw [hsetKey]
      intro p hp j hj hj100
      rcases List.mem_append.mp hp with hmem | hmem
      · exact hfresh p hmem j (by omega) hj100
      · have hpe : p = (pure ++ "-" ++ padTwo i, c.value) := by simpa using hmem
        rw [hpe]
        exact paletteName_ne pure i j (by omega) hi100 hj100
    have hih := ih (i + 1) (setKey hard (pure ++ "-" ++ padTwo i) c.value)
      (setKey maps c.value (pure ++ "-" ++ padTwo i)) hbound' hfresh'
    have hhard_lookup : lookupKey (setKey hard (pure ++ "-" ++ padTwo i) c.value)
        (pure ++ "-" ++ padTwo i) = some c.value := by
      rw [hsetKey, lookupKey_append,
        lookupKey_eq_none_of_all_ne hard _ hfresh_i, lookupKey_cons]
      simp
    have hmaps_lookup : lookupKey (setKey maps c.value (pure ++ "-" ++ padTwo i))
        c.value = some (pure ++ "-" ++ padTwo i) := by
      rw [lookupKey_setKey, if_pos rfl]
    constructor
    · intro c' hc'
      rcases List.mem_cons.mp hc' with heq | hmem
    -- c' is the colour processed at index i
      · subst heq
        rw [hstep]
        exact hih.2 c'.value (pure ++ "-" ++ padTwo i) hmaps_lookup hhard_lookup
      · rw [hstep]
        exact hih.1 c' hmem
    · intro v nm h₁ h₂
      by_cases hv : v = c.value
      · subst hv
        rw [hstep]
        exact hih.2 c.value (pure ++ "-" ++ padTwo i) hmaps_lookup hhard_lookup
      · have h₁' : lookupKey (setKey maps c.value (pure ++ "-" ++ padTwo i)) v =
            some nm := by
          rw [lookupKey_setKey, if_neg hv]
          exact h₁
        have h₂' : lookupKey (setKey hard (pure ++ "-" ++ padTwo i) c.value) nm =
            some v := by
          rw [hsetKey, lookupKey_append, h₂]
          rfl
        rw [hstep]
        exact hih.2 v nm h₁' h₂'

lemma matchAllColors_true_all_some (prims : List (String × String)) :
    ∀ (cs : List SemColor) (maps : List (String × String)),
      (matchAllColors prims cs maps).1 = true →
      ∀ c ∈ cs, (findClosestPrimitive c.value prims 30).isSome := by
  intro cs
  induction cs with
  | nil => intro maps _ c hc; simp at hc
  | cons c₀ cs ih =>
    intro maps htrue c hc
    cases hf : findClosestPrimitive c₀.value prims 30 with
    | none =>
      rw [show (matchAllColors prims (c₀ :: cs) maps).1 = (false : Bool) by
        simp [matchAllColors, hf]] at htrue
      exact absurd htrue (by simp)
    | some nm =>
      rcases List.mem_cons.mp hc with heq | hmem
      · subst heq
        simp [hf]
      · have hstep : matchAllColors prims (c₀ :: cs) maps =
            matchAllColors prims cs (setKey maps c₀.value nm) := by
          simp [matchAllColors, hf]
        rw [hstep] at htrue
        exact ih _ htrue c hmem

/-- C2 counterexample: after synthesis the hardcoded black `#000000` maps to
the existing primitive `grey-10`, whose stored value `#0a0a0a` is within
distance 30 but not equal to the semantic colour's own value, contradicting
the claim that the mapped primitive's stored value equals the colour's
value. -/
theorem c2_counterexample :
    lookupKey (extractHardcodedSemanticValues [("Text", ceBlackGroup)] ceGreyPrimitives).2
        "#000000" = some "grey-10" ∧
    (extractHardcodedSemanticValues [("Text", ceBlackGroup)] ceGreyPrimitives).1 = [] ∧
    lookupKey ceGreyPrimitives "grey-10" = some "#0a0a0a" ∧
    "#0a0a0a" ≠ "#000000" := by
  decide

/-- C2 amended: after the synthesizer processes a semantic group (of at most
100 colours), every hardcoded colour maps to exactly one primitive name, and
that name designates either an existing primitive whose stored value is
within squared RGB distance 900 (distance 30) of the colour — not
necessarily equal to it — or a newly synthesized palette entry whose stored
value equals the colour's value exactly. -/
theorem c2_amended_synthesis_coverage (prims : List (String × String))
    (gname : String) (colors : List SemColor) (hlen : colors.length ≤ 100) :
    ∀ c ∈ colors, ∃ nm,
      lookupKey (extractHardcodedSemanticValues [(gname, colors)] prims).2 c.value =
        some nm ∧
      ((∃ v, (nm, v) ∈ prims ∧ ∃ d : Int, colorDistSq c.value v = some d ∧ d ≤ 900) ∨
        lookupKey (extractHardcodedSemanticValues [(gname, colors)] prims).1 nm =
          some c.value) := by
  cases colors with
  | nil => intro c hc; simp at hc
  | cons c₀ ctail =>
    cases hb : (matchAllColors prims (c₀ :: ctail) []).1 with
    | true =>
      have hunfold : extractHardcodedSemanticValues [(gname, c₀ :: ctail)] prims =
          ([], (matchAllColors prims (c₀ :: ctail) []).2) := by
        unfold extractHardcodedSemanticValues processGroups
        rw [if_neg (by simp)]
        dsimp only
        rw [if_pos hb]
        rfl
      intro c hc
      have hsome := matchAllColors_true_all_some prims (c₀ :: ctail) [] hb c hc
      rw [Option.isSome_iff_exists] at hsome
      obtain ⟨nm, hnm⟩ := hsome
      refine ⟨nm, ?_, Or.inl (findClosestPrimitive_spec c.value prims nm hnm)⟩
      rw [hunfold]
      rw [(matchAllColors_spec prims (c₀ :: ctail) [] hb c.value).1
        (List.any_eq_true.mpr ⟨c, hc, by simp⟩)]
      exact hnm
    | false =>
      have hunfold : extractHardcodedSemanticValues [(gname, c₀ :: ctail)] prims =
          assignPalette
            (getPureColorName ((c₀ :: ctail).map (fun c => c.value))
              (mergeAssoc prims []))
            (sortByLightness (c₀ :: ctail)) 0 []
            (matchAllColors prims (c₀ :: ctail) []).2 := by
        unfold extractHardcodedSemanticValues processGroups
        rw [if_neg (by simp)]
        dsimp only
        rw [if_neg (by simp [hb])]
        rfl
      intro c hc
      have hmem : c ∈ sortByLightness (c₀ :: ctail) := (mem_sortByLightness c _).mpr hc
      have hbound : 0 + (sortByLightness (c₀ :: ctail)).length ≤ 100 := by
        rw [length_sortByLightness]
        omega
      have hspec := (assignPalette_spec
        (getPureColorName ((c₀ :: ctail).map (fun c => c.value)) (mergeAssoc prims []))
        (sortByLightness (c₀ :: ctail)) 0 []
        (matchAllColors prims (c₀ :: ctail) []).2 hbound
        (by intro p hp; simp at hp)).1 c hmem
      obtain ⟨nm, h₁, h₂⟩ := hspec
      refine ⟨nm, ?_, Or.inr ?_⟩
      · rw [hunfold]; exact h₁
      · rw [hunfold]; exact h₂

/-- C2 witness: the single-colour group `#000000` against the grey primitive
palette — the colour maps to exactly one primitive entry, within-threshold. -/
theorem c2_amended_witness :
    ∃ nm,
      lookupKey (extractHardcodedSemanticValues [("Text", ceBlackGroup)]
          ceGreyPrimitives).2 "#000000" = some nm ∧
      ((∃ v, (nm, v) ∈ ceGreyPrimitives ∧
          ∃ d : Int, colorDistSq "#000000" v = some d ∧ d ≤ 900) ∨
        lookupKey (extractHardcodedSemanticValues [("Text", ceBlackGroup)]
            ceGreyPrimitives).1 nm = some "#000000") :=
  c2_amended_synthesis_coverage ceGreyPrimitives "Text" ceBlackGroup (by decide)
    ⟨"x", "#000000", "Text-x"⟩ (by decide)
